import Mathlib

/-!
Verification of the file-tree builder and response normalizer of the
`icp-hub-frontend` services (`fileService.ts`, `repositoryService.ts`).

The embedding below translates the TypeScript sources into Lean:
JavaScript objects become structures, mutable-object aliasing in
`buildTreeFromFiles` (the `nodeMap` whose values are the same objects as the
ones in the output tree) becomes an explicit store (`BuildState`) of folder
entries keyed by path, which is materialized into the nested output tree at
the end, and thrown exceptions become `Except`.
-/

namespace IcpHub

/-- Splitting a character list at every occurrence of `sep`
(the splitting underlying JavaScript `String.prototype.split` with a
one-character separator: the empty string splits to `[""]`, a leading or
trailing separator yields an empty segment). -/
def splitChars (sep : Char) : List Char → List (List Char)
  | [] => [[]]
  | c :: cs =>
    if c = sep then [] :: splitChars sep cs
    else
      match splitChars sep cs with
      | [] => [[c]]
      | h :: t => (c :: h) :: t

/-- `s.split(sep)` of JavaScript, for a one-character separator. -/
def jsSplit (sep : Char) (s : String) : List String :=
  (splitChars sep s.data).map String.mk

/-- Interleaving `sep` between character lists (JavaScript
`Array.prototype.join` underlying). -/
def joinChars (sep : Char) : List (List Char) → List Char
  | [] => []
  | [l] => l
  | l :: ls => l ++ sep :: joinChars sep ls

/-- `parts.join(sep)` of JavaScript, for a one-character separator. -/
def jsJoin (sep : Char) (parts : List String) : String :=
  ⟨joinChars sep (parts.map String.data)⟩

/-- One element of `result.data.files` as consumed by
`FileService.buildTreeFromFiles` (`fileService.ts`).  `size` is the numeric
value of `Number(file.size || 0)`; `lastModified` is `some t` when
`typeof file.lastModified === 'number'` holds with numeric value `t`
(nanoseconds), and `none` otherwise. -/
structure FileRec where
  path : String
  isFolder : Bool
  size : Nat
  lastModified : Option Int
  deriving Repr, DecidableEq

/-- `FileNode` of `types/repository.ts`: `children` is `none` exactly when
the JS object carries no `children` field. -/
inductive FileNode where
  | mk (path name : String) (isFolder : Bool) (size : Nat) (lastModified : Int)
       (children : Option (List FileNode))
  deriving Repr

def FileNode.path : FileNode → String
  | .mk p _ _ _ _ _ => p

def FileNode.name : FileNode → String
  | .mk _ n _ _ _ _ => n

def FileNode.isFolder : FileNode → Bool
  | .mk _ _ f _ _ _ => f

def FileNode.size : FileNode → Nat
  | .mk _ _ _ s _ _ => s

def FileNode.lastModified : FileNode → Int
  | .mk _ _ _ _ t _ => t

def FileNode.children : FileNode → Option (List FileNode)
  | .mk _ _ _ _ _ c => c

/-- The flat data of a leaf node built for one file record in
`buildTreeFromFiles` (the `node` local; `isFolder` is the literal `false`
and no `children` field is present, so only the remaining fields vary). -/
structure LeafData where
  path : String
  name : String
  size : Nat
  lastModified : Int
  deriving Repr, DecidableEq

/-- A reference held by the `tree` array or by a folder's `children` array.
In the source these are object references; leaf-node objects are never
mutated after creation, so they are carried by value, while folder objects
are mutated through `nodeMap` and are therefore referenced by their key. -/
inductive Ref where
  | file (d : LeafData)
  | folder (path : String)
  deriving Repr, DecidableEq

/-- The mutable fields of a folder node stored in `nodeMap` (`folderNode`
in the source; `isFolder` is the literal `true`). -/
structure FolderInfo where
  name : String
  size : Nat
  lastModified : Int
  children : List Ref
  deriving Repr, DecidableEq

/-- The mutable state of `buildTreeFromFiles`: the `tree` result array and
the `nodeMap` object (an insertion-ordered association list, as JS object
string keys enumerate in insertion order). -/
structure BuildState where
  tree : List Ref
  nodeMap : List (String × FolderInfo)
  deriving Repr, DecidableEq

/-- `nodeMap[k]` lookup. -/
def lookupMap (m : List (String × FolderInfo)) (k : String) : Option FolderInfo :=
  match m with
  | [] => none
  | (k', v) :: rest => if k' = k then some v else lookupMap rest k

/-- `nodeMap[k].children.push(r)`: append `r` to the children of the entry
keyed `k` (keys are unique, so at most one entry is touched). -/
def pushChild (m : List (String × FolderInfo)) (k : String) (r : Ref) :
    List (String × FolderInfo) :=
  m.map fun e => if e.1 = k then (e.1, { e.2 with children := e.2.children ++ [r] }) else e

/-- One iteration `i` of the folder-materialization loop
`for (let i = 0; i < pathParts.length - 1; i++)` in `buildTreeFromFiles`.
The accumulator carries the `currentPath` local and the state. -/
def stepFolder (pathParts : List String) (now : Int)
    (acc : String × BuildState) (i : Nat) : String × BuildState :=
  let folderName := pathParts.getD i ""
  let currentPath := if acc.1 ≠ "" then acc.1 ++ "/" ++ folderName else folderName
  let st := acc.2
  match lookupMap st.nodeMap currentPath with
  | some _ => (currentPath, st)
  | none =>
    let info : FolderInfo := { name := folderName, size := 0, lastModified := now, children := [] }
    let m1 := st.nodeMap ++ [(currentPath, info)]
    if i = 0 then
      (currentPath, { tree := st.tree ++ [Ref.folder currentPath], nodeMap := m1 })
    else
      let parentPath := jsJoin '/' (pathParts.take i)
      match lookupMap m1 parentPath with
      | some _ =>
        (currentPath, { tree := st.tree, nodeMap := pushChild m1 parentPath (Ref.folder currentPath) })
      | none => (currentPath, { tree := st.tree, nodeMap := m1 })

/-- The body of `sortedFiles.forEach((file) => ...)` in `buildTreeFromFiles`.
The leaf `lastModified` is `file.lastModified / 1000000` when the field is a
number (the JS division is floating-point; integer division stands in for
it here, none of the verified properties depending on the quotient's value)
and `Date.now()` — the `now` parameter — otherwise. -/
def processFile (now : Int) (st : BuildState) (file : FileRec) : BuildState :=
  let pathParts := jsSplit '/' file.path
  let fileName := pathParts.getLastD ""
  if fileName = ".gitkeep" then st
  else
    let node : LeafData :=
      { path := file.path, name := fileName, size := file.size,
        lastModified := match file.lastModified with
          | some t => t / 1000000
          | none => now }
    if pathParts.length = 1 then { st with tree := st.tree ++ [Ref.file node] }
    else
      let acc := (List.range (pathParts.length - 1)).foldl (stepFolder pathParts now) ("", st)
      let st1 := acc.2
      let parentPath := jsJoin '/' pathParts.dropLast
      match lookupMap st1.nodeMap parentPath with
      | some _ => { st1 with nodeMap := pushChild st1.nodeMap parentPath (Ref.file node) }
      | none => st1

/-- Stable insertion of `x` after every element `y` with `le y x` (helper
for `jsSortBy`). -/
def insertSorted (le : α → α → Bool) (x : α) : List α → List α
  | [] => [x]
  | y :: ys => if le y x then y :: insertSorted le x ys else x :: y :: ys

/-- A stable comparator sort: the model of `[...files].sort(cmp)`
(`Array.prototype.sort` is stable), as a left-to-right insertion sort. -/
def jsSortBy (le : α → α → Bool) (l : List α) : List α :=
  l.foldl (fun acc x => insertSorted le x acc) []

/-- The leaf `FileNode` object built for one record (`isFolder: false`, no
`children` field). -/
def toLeafNode (d : LeafData) : FileNode :=
  .mk d.path d.name false d.size d.lastModified none

def lookupNode (m : List (String × FileNode)) (k : String) : Option FileNode :=
  match m with
  | [] => none
  | (k', v) :: rest => if k' = k then some v else lookupNode rest k

/-- Dereference one stored reference against the materialized folder map. -/
def resolveRef (resolved : List (String × FileNode)) : Ref → Option FileNode
  | .file d => some (toLeafNode d)
  | .folder p => lookupNode resolved p

/-- Materialize the folder objects of `nodeMap` into nested `FileNode`s.
An entry's children only ever reference entries inserted after it (a folder
is attached to its parent at the moment of its own creation, and creation
appends at the end), so entries are resolved back-to-front; the `filterMap`
drop of an unresolvable reference is unreachable under that invariant. -/
def resolveMap (m : List (String × FolderInfo)) : List (String × FileNode) :=
  match m with
  | [] => []
  | (p, info) :: rest =>
    let resolved := resolveMap rest
    (p, .mk p info.name true info.size info.lastModified
          (some (info.children.filterMap (resolveRef resolved)))) :: resolved

/-- `FileService.buildTreeFromFiles` (`fileService.ts`), parameterized by the
comparator used in `[...files].sort((a, b) => a.path.localeCompare(b.path))`
(as a boolean `le`; `Array.prototype.sort` is stable, as is `mergeSort`) and
by `Date.now()`. -/
def buildTreeFromFilesWith (le : String → String → Bool) (now : Int)
    (files : List FileRec) : List FileNode :=
  let sortedFiles := jsSortBy (fun a b => le a.path b.path) files
  let st := sortedFiles.foldl (processFile now) { tree := [], nodeMap := [] }
  let resolved := resolveMap st.nodeMap
  st.tree.filterMap (resolveRef resolved)

/-- Lexicographic code-point comparison of character lists. -/
def dataLe : List Char → List Char → Bool
  | [], _ => true
  | _ :: _, [] => false
  | a :: as, b :: bs => if a = b then dataLe as bs else decide (a < b)

/-- `a.localeCompare(b) <= 0`, modelled as lexicographic code-point order;
this agrees with locale collation on the ASCII file names considered in the
concrete examples below (and the order-independent theorems below hold for
every comparator). -/
def localeLe (a b : String) : Bool := dataLe a.data b.data

/-- `FileService.buildTreeFromFiles` with its actual comparator. -/
def buildTreeFromFiles (now : Int) (files : List FileRec) : List FileNode :=
  buildTreeFromFilesWith localeLe now files

mutual

/-- Depth-first flattening of one node with nesting depths: the node at
depth `d`, then its children recursively at depth `d + 1`. -/
def flattenNodeDepth (d : Nat) : FileNode → List (Nat × FileNode)
  | .mk p n f s t c => (d, .mk p n f s t c) :: flattenChildrenDepth (d + 1) c

def flattenChildrenDepth (d : Nat) : Option (List FileNode) → List (Nat × FileNode)
  | none => []
  | some cs => flattenListDepth d cs

def flattenListDepth (d : Nat) : List FileNode → List (Nat × FileNode)
  | [] => []
  | c :: cs => flattenNodeDepth d c ++ flattenListDepth d cs

end

/-- Depth-first flattening of a forest with depths (roots at depth 0). -/
def flattenForestDepth (ns : List FileNode) : List (Nat × FileNode) :=
  flattenListDepth 0 ns

/-- Depth-first flattening of a forest. -/
def flattenForest (ns : List FileNode) : List FileNode :=
  (flattenForestDepth ns).map Prod.snd

/-- The children-free data of a `FileNode`. -/
structure NData where
  path : String
  name : String
  isFolder : Bool
  size : Nat
  lastModified : Int
  deriving Repr, DecidableEq

def FileNode.nData (n : FileNode) : NData :=
  { path := n.path, name := n.name, isFolder := n.isFolder, size := n.size,
    lastModified := n.lastModified }

/-! ### Repository ID management (`RepositoryIdManager`, `repositoryService.ts`) -/

/-- JavaScript `s.startsWith(pre)`. -/
def jsStartsWith (s pre : String) : Bool := pre.data.isPrefixOf s.data

/-- JavaScript `s.includes(sub)`. -/
def jsIncludes (s sub : String) : Bool := decide (sub.data <:+: s.data)

/-- The match of the regular expression `/\d+$/` against `s`: the maximal
non-empty suffix of decimal digits, or `none` when the last character is not
a digit (or `s` is empty). -/
def trailingDigits (s : String) : Option String :=
  let ds := (s.data.reverse.takeWhile Char.isDigit).reverse
  if ds.isEmpty then none else some ⟨ds⟩

/-- `RepositoryIdManager.normalize` (`repositoryService.ts`): `none` models
`null`/`undefined`; JavaScript `!id` also holds for the empty string; the
`throw` becomes `Except.error`. -/
def RepositoryIdManager.normalize (id : Option String) : Except String String :=
  match id with
  | none => .error "Repository ID is required"
  | some s =>
    if s = "" then .error "Repository ID is required"
    else if jsStartsWith s "repo_" then .ok s
    else
      match trailingDigits s with
      | some ds => .ok ("repo_" ++ ds)
      | none => .ok ("repo_" ++ s)

/-- A character matched by the regex class `\w` ([A-Za-z0-9_]). -/
def isWordChar (c : Char) : Bool := c.isAlphanum || c = '_'

/-- `RepositoryIdManager.isValid`:
`id.startsWith('repo_') && /^repo_\w+$/.test(id)`. -/
def RepositoryIdManager.isValid (id : String) : Bool :=
  jsStartsWith id "repo_" &&
    (jsStartsWith id "repo_" && (id.data.drop 5).all isWordChar && !(id.data.drop 5).isEmpty)

/-! ### Response normalization (`repositoryService.ts`) -/

/-- The backend wire record for a repository.  Option-typed wire fields are
zero-or-one-element Candid options or fields that can be structurally
absent; bigint counters and nanosecond timestamps travel as decimal-digit
strings (`none` models a structurally missing field, whose `Number(...)` is
`NaN`); `owner` carries the `toString()` form of the principal, `none` when
the field is absent (so that `.toString()` throws). -/
structure RepoWire where
  id : String
  name : String
  description : List String
  owner : Option String
  isPrivate : Bool
  stars : Option String
  forks : Option String
  language : List String
  settingsLicense : Option (List String)
  createdAt : Option String
  updatedAt : Option String
  deriving Repr, DecidableEq

/-- The numeric value of a list of decimal digits. -/
def decimalValue (l : List Char) : Nat :=
  l.foldl (fun a c => a * 10 + (c.toNat - 48)) 0

/-- `Number(s)` of JavaScript restricted to plain decimal-digit strings:
`some` of the denoted value for a non-empty digit string, `none` (NaN)
otherwise.  The conversion is exact for values below 2^53; the concrete
values verified here are exactly representable as IEEE doubles. -/
def parseDecimal (s : String) : Option Nat :=
  if s.data ≠ [] ∧ s.data.all Char.isDigit = true then some (decimalValue s.data) else none

/-- The time value of `new Date(v)` for a finite numeric `v` (`TimeClip`
truncates toward zero); `toISOString` renders exactly this millisecond
value, which therefore represents the normalized `createdAt`/`updatedAt`.
The JavaScript division `Number(x) / 1000000` is floating-point; it is
modelled by exact rational division, with which it agrees whenever operand
and quotient are exactly representable — in particular on the concrete
example verified below. -/
def jsDateTimeValue (q : ℚ) : ℤ := if 0 ≤ q then ⌊q⌋ else ⌈q⌉

/-- The normalized `Repository` display object of `repositoryService.ts`.
`createdAtMs`/`updatedAtMs` carry the instant denoted by the ISO-8601
`createdAt`/`updatedAt` strings, in epoch milliseconds; `stars`/`forks` are
`none` when `Number(...)` produced `NaN`. -/
structure RepositoryN where
  id : String
  name : String
  description : Option String
  owner : String
  visibility : String
  stars : Option Nat
  forks : Option Nat
  watchers : Nat
  issues : Nat
  language : Option String
  license : Option String
  createdAtMs : Int
  updatedAtMs : Int
  cloneUrl : Option String
  deriving Repr, DecidableEq

/-- The per-record repository mapping shared by
`RepositoryService.getRepositories` (the `repo => ({...})` literal) and
`RepositoryService.getRepository`: option unwrapping for
`description`/`language`/`settings.license`, `Number(...)` on counters,
nanosecond-to-millisecond conversion on timestamps.  Field initializers run
left to right, so a missing `owner` throws (`TypeError` on `.toString()`)
before the timestamps are read, and a missing or non-numeric timestamp
makes `new Date(NaN).toISOString()` throw a `RangeError`. -/
def mapRepoWire (w : RepoWire) (cloneUrl : Option String) : Except String RepositoryN :=
  match w.owner with
  | none => .error "TypeError: Cannot read properties of undefined (reading 'toString')"
  | some owner =>
    match w.createdAt.bind parseDecimal with
    | none => .error "RangeError: Invalid time value"
    | some cns =>
      match w.updatedAt.bind parseDecimal with
      | none => .error "RangeError: Invalid time value"
      | some uns =>
        .ok { id := w.id
              name := w.name
              description := w.description.head?
              owner := owner
              visibility := if w.isPrivate then "private" else "public"
              stars := w.stars.bind parseDecimal
              forks := w.forks.bind parseDecimal
              watchers := 0
              issues := 0
              language := w.language.head?
              license := (w.settingsLicense.getD []).head?
              createdAtMs := jsDateTimeValue ((cns : ℚ) / 1000000)
              updatedAtMs := jsDateTimeValue ((uns : ℚ) / 1000000)
              cloneUrl := cloneUrl }

/-- `result.data.repositories.map(...)` over a listing: one thrown mapping
error aborts the whole `.map`. -/
def mapRepoListing (rs : List RepoWire) : Except String (List RepositoryN) :=
  rs.mapM (fun w => mapRepoWire w none)

/-! ### Fallback behavior of the fetch operations -/

/-- The `{success, data?, error?}` envelope returned by `apiService`
calls. -/
structure ApiResult (α : Type) where
  success : Bool
  data : Option α
  error : Option String
  deriving Repr, DecidableEq

/-- The `result.data` payload of `apiService.listFiles`: its `files` field
may be structurally absent (`result.data.files || []`). -/
structure FilesData where
  files : Option (List FileRec)
  deriving Repr, DecidableEq

/-- The response shape assembled by `FileService.getFileTree`
(`FileTreeResponse` of `types/repository.ts`). -/
structure FileTreeResponse where
  repositoryId : String
  tree : List FileNode
  totalFiles : Nat
  totalFolders : Nat
  totalSize : Nat
  deriving Repr

/-- `FileService.getMockFileTree` (`fileService.ts`): the statically defined
mock dataset, with `Date.now()` as `now`. -/
def getMockFileTree (now : Int) (repositoryId : String) : FileTreeResponse :=
  { repositoryId := repositoryId
    tree := [
      .mk "src" "src" true 0 now (some [
        .mk "src/main.mo" "main.mo" false 2048 (now - 86400000) none,
        .mk "src/types.mo" "types.mo" false 1024 (now - 172800000) none]),
      .mk "README.md" "README.md" false 4096 (now - 3600000) none,
      .mk "dfx.json" "dfx.json" false 512 (now - 7200000) none]
    totalFiles := 4
    totalFolders := 1
    totalSize := 7680 }

/-- `FileService.getFileTree` (`fileService.ts`), as a function of the
outcome of `await apiService.listFiles(...)` after successful
initialization; `Except.error` models a rejected promise (the `catch`
branch).  On success it builds the tree and computes the totals over the
raw, unfiltered `files` list; on non-success or rejection it falls back to
the mock dataset. -/
def getFileTree (now : Int) (repositoryId : String)
    (result : Except String (ApiResult FilesData)) : FileTreeResponse :=
  match result with
  | .error _ => getMockFileTree now repositoryId
  | .ok r =>
    match r.success, r.data with
    | true, some d =>
      let files := d.files.getD []
      { repositoryId := repositoryId
        tree := buildTreeFromFiles now files
        totalFiles := (files.filter fun f => !f.isFolder).length
        totalFolders := (files.filter fun f => f.isFolder).length
        totalSize := files.foldl (fun sum f => sum + f.size) 0 }
    | _, _ => getMockFileTree now repositoryId

/-- The `result.data` payload of `apiService.listPublicRepositories`. -/
structure PublicRepoData where
  repositories : List RepoWire
  totalCount : Nat
  deriving Repr, DecidableEq

/-- The `RepositoryListResponse` shape of `repositoryService.ts`. -/
structure RepoListing where
  repositories : List RepositoryN
  total : Nat
  page : Nat
  limit : Nat
  deriving Repr, DecidableEq

/-- `RepositoryService.getMockRepositories` (`repositoryService.ts`).  The
ISO literals `createdAt: '2024-01-15T10:30:00Z'` and
`updatedAt: '2024-01-20T14:45:00Z'` are carried as the epoch-millisecond
instants they denote (1705314600000 and 1705761900000). -/
def getMockRepositories : RepoListing :=
  { repositories := [
      { id := "repo_1"
        name := "cross-chain-defi"
        description := some "Advanced DeFi protocol with cross-chain yield farming capabilities and automated market making"
        owner := "alice.icp"
        visibility := "public"
        stars := some 2341
        forks := some 456
        watchers := 1234
        issues := 89
        language := some "Solidity"
        license := some "MIT"
        createdAtMs := 1705314600000
        updatedAtMs := 1705761900000
        cloneUrl := some "https://github.com/alice/cross-chain-defi.git" }]
    total := 1
    page := 1
    limit := 50 }

/-- `RepositoryService.getRepositories` (`repositoryService.ts`) for an
unauthenticated session with an initialized actor (the authenticated branch
differs only before the public fetch reached here; the failure handling
under verification is the shared tail), as a function of the
`listPublicRepositories` outcome.  A rejected call, a non-success result,
and a mapping `TypeError`/`RangeError` are all absorbed by the enclosing
`catch`, which returns the mock listing. -/
def getRepositories (result : Except String (ApiResult PublicRepoData)) : RepoListing :=
  match result with
  | .error _ => getMockRepositories
  | .ok r =>
    match r.success, r.data with
    | true, some d =>
      match mapRepoListing d.repositories with
      | .ok repos => { repositories := repos, total := d.totalCount, page := 1, limit := 100 }
      | .error _ => getMockRepositories
    | _, _ => getMockRepositories

/-- `RepositoryService.getRepository` (`repositoryService.ts`), as a
function of the requested id and the `apiService.getRepository` outcome.
Unlike `getFileTree` and `getRepositories` it has no mock fallback: a
non-success result or a rejected call is rethrown (after optionally
rewrapping a `not found` error for an invalid id), so the caller observes
the rejection. -/
def getRepository (id : String)
    (result : Except String (ApiResult RepoWire)) : Except String RepositoryN :=
  let body : Except String RepositoryN :=
    match RepositoryIdManager.normalize (some id) with
    | .error e => .error e
    | .ok _ =>
      match result with
      | .error e => .error e
      | .ok r =>
        match r.success, r.data with
        | true, some repo =>
          mapRepoWire repo
            (some ("https://openkeyhub.com/" ++ repo.owner.getD "undefined" ++ "/" ++ repo.name ++ ".git"))
        | _, _ => .error (r.error.getD "Unknown error")
  match body with
  | .ok v => .ok v
  | .error e =>
    if jsIncludes e "not found" && !(RepositoryIdManager.isValid id) then
      .error ("Repository not found. Invalid ID format: " ++ id ++ ". Expected format: repo_<id>")
    else
      .error e

/-- The wire record of the C5 example:
`{description: [], stars: "12", createdAt: "1700000000000000000"}` (with the
remaining mandatory fields populated). -/
def exampleWire : RepoWire :=
  { id := "repo_42", name := "demo", description := [], owner := some "aaaaa-aa",
    isPrivate := false, stars := some "12", forks := some "0", language := [],
    settingsLicense := none, createdAt := some "1700000000000000000",
    updatedAt := some "1700000000000000000" }

/-- A wire record with every mandatory field present and all optional
fields absent. -/
def goodWire : RepoWire :=
  { id := "repo_7", name := "ok", description := [], owner := some "bbbbb-bb",
    isPrivate := false, stars := some "1", forks := some "2", language := [],
    settingsLicense := none, createdAt := some "0", updatedAt := some "0" }

/-- `goodWire` with the mandatory `owner` field structurally missing. -/
def badWire : RepoWire :=
  { goodWire with owner := none }

/-- The C9 example listing: an ordinary file of size 5 and a placeholder
`b/.gitkeep` record of size 3. -/
def c9files : List FileRec :=
  [{ path := "a.txt", isFolder := false, size := 5, lastModified := some 0 },
   { path := "b/.gitkeep", isFolder := false, size := 3, lastModified := some 0 }]

/-- The C2 example input, in the listed insertion order. -/
def c2files : List FileRec :=
  [{ path := "src/main.mo", isFolder := false, size := 2048, lastModified := some 0 },
   { path := "src/types.mo", isFolder := false, size := 1024, lastModified := some 0 },
   { path := "README.md", isFolder := false, size := 4096, lastModified := some 0 }]

/-- The C6 example input: a lone placeholder marker record. -/
def c6files : List FileRec :=
  [{ path := "a/.gitkeep", isFolder := false, size := 0, lastModified := some 0 }]

deriving instance DecidableEq for Except

/-! Definitions used by the structural theorems about the builder state. -/

def refPath : Ref → String
  | .file d => d.path
  | .folder p => p

/-- The children-free data of the leaf node a file reference denotes. -/
def fileND (d : LeafData) : NData :=
  { path := d.path, name := d.name, isFolder := false, size := d.size,
    lastModified := d.lastModified }

def refNData : Ref → Option NData
  | .file d => some (fileND d)
  | .folder _ => none

/-- The children-free data of the leaf refs of a list, in order. -/
def fileDatas (rs : List Ref) : List NData := rs.filterMap refNData

/-- The folder references of a list, by key. -/
def folderKeys (rs : List Ref) : List String :=
  rs.filterMap fun r => match r with
    | .folder p => some p
    | .file _ => none

/-- The children-free data of the folder node stored by one map entry. -/
def entryNData (e : String × FolderInfo) : NData :=
  { path := e.1, name := e.2.name, isFolder := true, size := e.2.size,
    lastModified := e.2.lastModified }

def mapKeys (m : List (String × FolderInfo)) : List String := m.map Prod.fst

/-- All children references stored in a map, in entry order. -/
def childRefs (m : List (String × FolderInfo)) : List Ref :=
  m.flatMap fun e => e.2.children

/-- All references reachable from a builder state: roots plus stored
children. -/
def allRefs (st : BuildState) : List Ref := st.tree ++ childRefs st.nodeMap

/-- Every folder reference stored in an entry points at a key appearing
strictly later in the map (folders are attached to their parent at the
moment of their creation, which appends at the end). -/
def SuffixPtr : List (String × FolderInfo) → Prop
  | [] => True
  | e :: rest => (∀ q, Ref.folder q ∈ e.2.children → q ∈ mapKeys rest) ∧ SuffixPtr rest

/-- The path segments of a path (`path.split('/')`). -/
def segs (p : String) : List String := jsSplit '/' p

/-- The nesting depth a node with path `p` should have: one less than its
number of segments. -/
def depthOf (p : String) : Nat := (segs p).length - 1

/-- The children-free data of the leaf node `buildTreeFromFiles` constructs
for a record. -/
def leafNData (now : Int) (f : FileRec) : NData :=
  { path := f.path, name := (segs f.path).getLastD "", isFolder := false,
    size := f.size,
    lastModified := match f.lastModified with
      | some t => t / 1000000
      | none => now }

/-- Pair each datum with the depth its path prescribes. -/
def withDepth (l : List NData) : List (Nat × NData) :=
  l.map fun nd => (depthOf nd.path, nd)

/-- A record whose final path segment is the placeholder marker. -/
def isMarker (f : FileRec) : Bool := (jsSplit '/' f.path).getLastD "" == ".gitkeep"

/-- The flattening of the refs of a list resolved against a materialized
folder map: each ref contributes the depth-first flattening of its subtree,
rooted at the depth its own path prescribes. -/
def resolveFlatten (R : List (String × FileNode)) (rs : List Ref) : List (Nat × FileNode) :=
  rs.flatMap fun r => (resolveRef R r).toList.flatMap (flattenNodeDepth (depthOf (refPath r)))

/-- The invariant maintained by `buildTreeFromFiles` over states reached
from inputs whose paths have a non-empty first segment. -/
structure Inv (now : Int) (st : BuildState) : Prop where
  nodup : (mapKeys st.nodeMap).Nodup
  sptr : SuffixPtr st.nodeMap
  refs1 : ∀ q, (folderKeys (allRefs st)).count q = (mapKeys st.nodeMap).count q
  cdep : ∀ e ∈ st.nodeMap, ∀ r ∈ e.2.children, depthOf (refPath r) = depthOf e.1 + 1
  rdep : ∀ r ∈ st.tree, depthOf (refPath r) = 0
  fmeta : ∀ e ∈ st.nodeMap, e.2.size = 0 ∧ e.2.lastModified = now ∧
    e.2.name = (segs e.1).getLastD ""

/-- The final mutable state of `buildTreeFromFiles`. -/
def buildState (le : String → String → Bool) (now : Int) (files : List FileRec) :
    BuildState :=
  (jsSortBy (fun a b => le a.path b.path) files).foldl (processFile now)
    { tree := [], nodeMap := [] }

def c1wfiles : List FileRec :=
  [{ path := "src/main.mo", isFolder := false, size := 2, lastModified := none },
   { path := "README.md", isFolder := false, size := 1, lastModified := some 3000000 }]

def c1cfiles : List FileRec :=
  [{ path := "/a/b", isFolder := false, size := 5, lastModified := none }]

def c4wrec : FileRec :=
  { path := "docs/guide/intro.md", isFolder := false, size := 4, lastModified := none }

def c4wfiles : List FileRec := [c4wrec]

def c4crec : FileRec :=
  { path := "/x/y", isFolder := false, size := 1, lastModified := none }

def c4cfiles : List FileRec := [c4crec]

/-- The `LeafData` literal `buildTreeFromFiles` constructs for a record. -/
def leafLD (now : Int) (f : FileRec) : LeafData :=
  { path := f.path, name := (jsSplit '/' f.path).getLastD "", size := f.size,
    lastModified := match f.lastModified with | some t => t / 1000000 | none => now }

/-- A stored reference is well-formed with respect to the input records:
file references carry exactly the leaf data of some non-placeholder input
record (folder references carry no data of their own). -/
def GoodRef (now : Int) (files : List FileRec) : Ref → Prop
  | .file d => ∃ f ∈ files, isMarker f = false ∧ d = leafLD now f
  | .folder _ => True

/-- All reachable references of a state are well-formed, and every folder
entry was synthesized with `size = 0` and `lastModified = now`. -/
def GoodState (now : Int) (files : List FileRec) (st : BuildState) : Prop :=
  (∀ r ∈ allRefs st, GoodRef now files r) ∧
  (∀ e ∈ st.nodeMap, e.2.size = 0 ∧ e.2.lastModified = now)

/-- The shape every node of the final tree has: the `children` field is
present exactly on folders, non-folders carry the data of a
non-placeholder input record, and folders carry the synthesized
`size = 0` / `lastModified = now` metadata. -/
def GoodNode (now : Int) (files : List FileRec) (n : FileNode) : Prop :=
  n.children.isSome = n.isFolder ∧
  (n.isFolder = false → ∃ f ∈ files, isMarker f = false ∧ n.nData = leafNData now f) ∧
  (n.isFolder = true → n.size = 0 ∧ n.lastModified = now)

def c8wfiles : List FileRec :=
  [{ path := "a/b.txt", isFolder := false, size := 2, lastModified := none }]

/-! ## Theorems -/

theorem jsStartsWith_append (p x : String) : jsStartsWith (p ++ x) p = true := by
  have h : p.data <+: (p ++ x).data := by
    rw [String.data_append]
    exact List.prefix_append _ _
  simp [jsStartsWith, List.isPrefixOf_iff_prefix, h]

theorem append_ne_empty_left {p : String} (x : String) (h : p ≠ "") : p ++ x ≠ "" := by
  intro hc
  apply h
  have hd := congrArg String.data hc
  rw [String.data_append] at hd
  exact String.ext (List.append_eq_nil.mp hd).1

theorem jsDateTimeValue_nat_div (n m : ℕ) :
    jsDateTimeValue ((n : ℚ) / (m : ℚ)) = ((n / m : ℕ) : ℤ) := by
  unfold jsDateTimeValue
  rw [if_pos (by positivity)]
  exact_mod_cast Rat.floor_natCast_div_natCast n m

/-- C10: for every non-empty string id, `RepositoryIdManager.normalize`
returns a string starting with `repo_`, is idempotent on its own output,
and fails exactly on `null`/`undefined`/the empty string. -/
theorem c10_normalize_prefix_idempotent :
    (∀ s : String, s ≠ "" →
      ∃ t, RepositoryIdManager.normalize (some s) = .ok t ∧
        jsStartsWith t "repo_" = true ∧
        RepositoryIdManager.normalize (some t) = .ok t) ∧
    RepositoryIdManager.normalize none = .error "Repository ID is required" ∧
    RepositoryIdManager.normalize (some "") = .error "Repository ID is required" := by
  refine ⟨?_, rfl, by simp [RepositoryIdManager.normalize]⟩
  intro s hs
  by_cases hp : jsStartsWith s "repo_" = true
  · exact ⟨s, by simp [RepositoryIdManager.normalize, hs, hp],
      hp, by simp [RepositoryIdManager.normalize, hs, hp]⟩
  · have hgen : ∀ x : String,
        RepositoryIdManager.normalize (some ("repo_" ++ x)) = .ok ("repo_" ++ x) := by
      intro x
      simp [RepositoryIdManager.normalize,
        append_ne_empty_left x (show ("repo_" : String) ≠ "" by decide),
        jsStartsWith_append]
    cases htd : trailingDigits s with
    | some ds =>
      exact ⟨"repo_" ++ ds, by simp [RepositoryIdManager.normalize, hs, hp, htd],
        jsStartsWith_append _ _, hgen ds⟩
    | none =>
      exact ⟨"repo_" ++ s, by simp [RepositoryIdManager.normalize, hs, hp, htd],
        jsStartsWith_append _ _, hgen s⟩

theorem c10_witness :
    ∃ t, RepositoryIdManager.normalize (some "abc123") = .ok t ∧
      jsStartsWith t "repo_" = true ∧
      RepositoryIdManager.normalize (some t) = .ok t :=
  c10_normalize_prefix_idempotent.1 "abc123" (by decide)

/-- C5: the normalizer converts nanosecond timestamps to milliseconds by
integer division by 1,000,000 (the floor of the modelled JS division, for
any nanosecond value), and the example wire record
`{description: [], stars: "12", createdAt: "1700000000000000000"}`
normalizes to `description = undefined`, `stars = 12`,
`createdAt = 1700000000000` ms. -/
theorem c5_nanosecond_normalization :
    (∀ n : ℕ, jsDateTimeValue ((n : ℚ) / (1000000 : ℕ)) = ((n / 1000000 : ℕ) : ℤ)) ∧
    mapRepoWire exampleWire none =
      .ok { id := "repo_42", name := "demo", description := none, owner := "aaaaa-aa",
            visibility := "public", stars := some 12, forks := some 0, watchers := 0,
            issues := 0, language := none, license := none,
            createdAtMs := 1700000000000, updatedAtMs := 1700000000000,
            cloneUrl := none } := by
  constructor
  · intro n
    exact jsDateTimeValue_nat_div n 1000000
  · have hp : parseDecimal "1700000000000000000" = some 1700000000000000000 := by decide
    have h12 : parseDecimal "12" = some 12 := by decide
    have h0 : parseDecimal "0" = some 0 := by decide
    have key : jsDateTimeValue ((1700000000000000000 : ℚ) / (1000000 : ℚ)) = (1700000000000 : ℤ) := by
      rw [show (1700000000000000000 : ℚ) = ((1700000000000000000 : ℕ) : ℚ) by norm_num,
          show (1000000 : ℚ) = ((1000000 : ℕ) : ℚ) by norm_num,
          jsDateTimeValue_nat_div]
      decide
    simp [mapRepoWire, exampleWire, hp, h12, h0, Option.bind, key]

/-- C3 counterexample: `getRepository` is a public fetch operation, and on a
non-success backend response it yields a rejection (`.error`), not the mock
dataset — so not every public fetch operation absorbs failures behind the
fallback. -/
theorem c3_counterexample_getRepository_rethrows :
    getRepository "repo_1" (.ok { success := false, data := none, error := some "boom" })
      = .error "boom" := by decide

theorem getRepository_error_isOk_false (id e : String) :
    (getRepository id (.error e)).isOk = false := by
  rcases hn : RepositoryIdManager.normalize (some id) with e2 | v <;>
    simp only [getRepository, hn] <;> split <;> rfl

theorem getRepository_nonsuccess_isOk_false (id : String) (r : ApiResult RepoWire)
    (h : r.success = false) : (getRepository id (.ok r)).isOk = false := by
  obtain ⟨s, d, er⟩ := r
  cases h
  rcases hn : RepositoryIdManager.normalize (some id) with e2 | v <;>
    simp only [getRepository, hn] <;> split <;> rfl

/-- C3 (amended): `getFileTree` and `getRepositories` return the fixed mock
dataset on a rejected transport call or a non-success response, but
`getRepository` instead propagates an error (a rejection) to its caller in
those cases. -/
theorem c3_fallback_amended :
    (∀ now rid e, getFileTree now rid (.error e) = getMockFileTree now rid) ∧
    (∀ now rid r, r.success = false → getFileTree now rid (.ok r) = getMockFileTree now rid) ∧
    (∀ now rid r, r.data = none → getFileTree now rid (.ok r) = getMockFileTree now rid) ∧
    (∀ e, getRepositories (.error e) = getMockRepositories) ∧
    (∀ r, r.success = false → getRepositories (.ok r) = getMockRepositories) ∧
    (∀ r, r.data = none → getRepositories (.ok r) = getMockRepositories) ∧
    (∀ id e, (getRepository id (.error e)).isOk = false) ∧
    (∀ id r, r.success = false → (getRepository id (.ok r)).isOk = false) := by
  refine ⟨fun _ _ _ => rfl, ?_, ?_, fun _ => rfl, ?_, ?_,
    getRepository_error_isOk_false, getRepository_nonsuccess_isOk_false⟩
  · rintro now rid ⟨s, d, er⟩ h
    cases h
    rfl
  · rintro now rid ⟨s, d, er⟩ h
    cases h
    cases s <;> rfl
  · rintro ⟨s, d, er⟩ h
    cases h
    rfl
  · rintro ⟨s, d, er⟩ h
    cases h
    cases s <;> rfl

theorem c3_witness :
    getFileTree 0 "repo_1" (.ok { success := false, data := none, error := none })
        = getMockFileTree 0 "repo_1" ∧
    (getRepository "repo_1" (.ok { success := false, data := none, error := some "x" })).isOk
        = false :=
  ⟨c3_fallback_amended.2.1 0 "repo_1" _ rfl,
   c3_fallback_amended.2.2.2.2.2.2.2 "repo_1" _ rfl⟩

theorem mapRepoWire_goodWire_isOk : (mapRepoWire goodWire none).isOk = true := by
  simp [mapRepoWire, goodWire, parseDecimal, Option.bind, decimalValue, Except.isOk, Except.toBool]

theorem mapRepoWire_badWire :
    mapRepoWire badWire none
      = .error "TypeError: Cannot read properties of undefined (reading 'toString')" := by
  simp [mapRepoWire, badWire, goodWire]

theorem mapRepoListing_good_bad :
    mapRepoListing [goodWire, badWire]
      = .error "TypeError: Cannot read properties of undefined (reading 'toString')" := by
  have hg := mapRepoWire_goodWire_isOk
  rcases hok : mapRepoWire goodWire none with e | r
  · rw [hok] at hg
    simp [Except.isOk, Except.toBool] at hg
  · simp only [mapRepoListing, List.mapM, List.mapM.loop, hok, mapRepoWire_badWire]
    rfl

theorem getRepositories_good_bad :
    getRepositories
        (.ok { success := true,
               data := some { repositories := [goodWire, badWire], totalCount := 2 },
               error := none })
      = getMockRepositories := by
  simp [getRepositories, mapRepoListing_good_bad]

/-- C7 counterexample: a record with a structurally missing mandatory field
(`owner`) does not produce a failure confined to that single record — the
thrown `TypeError` aborts the entire listing `.map`, and the enclosing
catch replaces the whole listing (healthy records included) with the mock
dataset. -/
theorem c7_counterexample_listing_aborts :
    (mapRepoWire goodWire none).isOk = true ∧
    mapRepoListing [goodWire, badWire]
      = .error "TypeError: Cannot read properties of undefined (reading 'toString')" ∧
    getRepositories
        (.ok { success := true,
               data := some { repositories := [goodWire, badWire], totalCount := 2 },
               error := none })
      = getMockRepositories :=
  ⟨mapRepoWire_goodWire_isOk, mapRepoListing_good_bad, getRepositories_good_bad⟩

/-- C7 (amended): normalization never throws when only optional fields
(`description`, `language`, `settings.license`, counters) are absent; but a
structurally missing mandatory field does not yield an itemized per-record
failure — the mapping throws, the throw aborts the entire listing `.map`,
and the enclosing catch substitutes the mock dataset for the whole
listing. -/
theorem c7_structural_failure_amended :
    (∀ w : RepoWire, ∀ o c u, w.owner = some o →
      w.createdAt.bind parseDecimal = some c →
      w.updatedAt.bind parseDecimal = some u →
      (mapRepoWire w none).isOk = true) ∧
    mapRepoWire badWire none
      = .error "TypeError: Cannot read properties of undefined (reading 'toString')" ∧
    mapRepoListing [goodWire, badWire]
      = .error "TypeError: Cannot read properties of undefined (reading 'toString')" ∧
    getRepositories
        (.ok { success := true,
               data := some { repositories := [goodWire, badWire], totalCount := 2 },
               error := none })
      = getMockRepositories := by
  refine ⟨?_, mapRepoWire_badWire, mapRepoListing_good_bad, getRepositories_good_bad⟩
  intro w o c u ho hc hu
  simp [mapRepoWire, ho, hc, hu, Except.isOk, Except.toBool]

theorem c7_witness :
    (mapRepoWire goodWire none).isOk = true :=
  c7_structural_failure_amended.1 goodWire "bbbbb-bb" 0 0 rfl (by decide) (by decide)

theorem length_filter_partition (l : List FileRec) :
    (l.filter fun f => !f.isFolder).length + (l.filter fun f => f.isFolder).length
      = l.length := by
  induction l with
  | nil => rfl
  | cons f t ih =>
    cases hf : f.isFolder <;> simp [List.filter, hf] <;> omega

/-- C9: on a successful response `getFileTree` computes the totals over the
raw unfiltered list — `totalFiles + totalFolders` always equals the raw
list length, and with a placeholder `.gitkeep` record present `totalFiles`
counts it and `totalSize` includes its size even though the record is
excluded from the returned tree, so `totalFiles` exceeds the number of file
nodes in the tree. -/
theorem c9_totals_over_raw_list :
    (∀ now rid (files : List FileRec),
      (getFileTree now rid
          (.ok { success := true, data := some { files := some files }, error := none })).totalFiles
        + (getFileTree now rid
          (.ok { success := true, data := some { files := some files }, error := none })).totalFolders
        = files.length) ∧
    (getFileTree 0 "repo_1"
        (.ok { success := true, data := some { files := some c9files }, error := none })).totalFiles
      = 2 ∧
    ((flattenForest (getFileTree 0 "repo_1"
        (.ok { success := true, data := some { files := some c9files }, error := none })).tree).filter
          fun n => !n.isFolder).length
      = 1 ∧
    (getFileTree 0 "repo_1"
        (.ok { success := true, data := some { files := some c9files }, error := none })).totalSize
      = 8 := by
  refine ⟨?_, by decide, by decide, by decide⟩
  intro now rid files
  simpa [getFileTree] using length_filter_partition files

/-- C2 counterexample: on the example input the root sequence is the file
`README.md` first and the folder `src` second — not the claimed insertion
order (folder `src` first, then `README.md`), because the builder sorts the
records by path before building. -/
theorem c2_counterexample_roots_sorted :
    ((buildTreeFromFiles 7 c2files).map fun n => (n.path, n.isFolder))
        = [("README.md", false), ("src", true)] ∧
    ((buildTreeFromFiles 7 c2files).map fun n => (n.path, n.isFolder))
        ≠ [("src", true), ("README.md", false)] := by
  constructor <;> decide

/-- C2 (amended): the builder sorts the records by path
(`localeCompare`) before building, so siblings appear in path-sorted order
rather than insertion order; for the example input the output is the file
`README.md` followed by the folder `src` with children `main.mo` then
`types.mo`. -/
theorem c2_amended_sorted_sibling_order :
    ∀ now, (flattenForestDepth (buildTreeFromFiles now c2files)).map
        (fun x => (x.1, x.2.path, x.2.name, x.2.isFolder, x.2.size))
      = [(0, "README.md", "README.md", false, 4096),
         (0, "src", "src", true, 0),
         (1, "src/main.mo", "main.mo", false, 2048),
         (1, "src/types.mo", "types.mo", false, 1024)] := by
  intro now
  rfl

/-- C6 counterexample: for the single record `a/.gitkeep` the output is
empty — the claimed single empty folder node `a` is not produced, because
the marker is skipped before any folder is materialized. -/
theorem c6_counterexample_empty_output :
    buildTreeFromFiles 0 c6files = [] := by
  rfl

/-- C6 (amended): a record whose last segment is the marker `.gitkeep` is
filtered out before any folder materialization, so its enclosing folder is
not materialized either: the output for `[a/.gitkeep]` is empty. -/
theorem c6_amended_no_folder_for_marker_only :
    ∀ now, buildTreeFromFiles now c6files = [] := by
  intro now
  rfl

theorem splitChars_ne_nil (sep : Char) (cs : List Char) : splitChars sep cs ≠ [] := by
  induction cs with
  | nil => simp [splitChars]
  | cons c cs ih =>
    unfold splitChars
    split
    · simp
    · cases h : splitChars sep cs <;> simp

theorem sep_not_mem_splitChars (sep : Char) (cs : List Char) :
    ∀ l ∈ splitChars sep cs, sep ∉ l := by
  induction cs with
  | nil => simp [splitChars]
  | cons c cs ih =>
    unfold splitChars
    split
    · intro l hl
      rcases List.mem_cons.mp hl with rfl | hl
      · simp
      · exact ih l hl
    · rename_i hc
      cases h : splitChars sep cs with
      | nil => exact absurd h (splitChars_ne_nil sep cs)
      | cons hd tl =>
        intro l hl
        rcases List.mem_cons.mp hl with rfl | hl
        · intro hmem
          rcases List.mem_cons.mp hmem with rfl | hmem
          · exact hc rfl
          · exact ih hd (h ▸ List.mem_cons_self hd tl) hmem
        · exact ih l (h ▸ List.mem_cons_of_mem hd hl)

theorem joinChars_splitChars (sep : Char) (cs : List Char) :
    joinChars sep (splitChars sep cs) = cs := by
  induction cs with
  | nil => rfl
  | cons c cs ih =>
    unfold splitChars
    split
    · rename_i hc
      cases h : splitChars sep cs with
      | nil => exact absurd h (splitChars_ne_nil sep cs)
      | cons hd tl =>
        rw [h] at ih
        simp [joinChars, hc, ih]
    · cases h : splitChars sep cs with
      | nil => exact absurd h (splitChars_ne_nil sep cs)
      | cons hd tl =>
        rw [h] at ih
        cases tl with
        | nil => simpa [joinChars] using ih
        | cons a b => simpa [joinChars] using ih

theorem splitChars_joinChars (sep : Char) (L : List (List Char)) (hne : L ≠ [])
    (hfree : ∀ l ∈ L, sep ∉ l) : splitChars sep (joinChars sep L) = L := by
  induction L with
  | nil => exact absurd rfl hne
  | cons l ls ih =>
    cases ls with
    | nil =>
      have hl := hfree l (List.mem_cons_self l [])
      clear ih hne hfree
      induction l with
      | nil => rfl
      | cons c cs ihc =>
        have hc : c ≠ sep := fun h => hl (h ▸ List.mem_cons_self c cs)
        have hcs : sep ∉ cs := fun h => hl (List.mem_cons_of_mem c h)
        unfold joinChars at ihc ⊢
        unfold splitChars
        rw [if_neg (fun h => hc h)]
        rw [ihc hcs]
    | cons l2 ls2 =>
      have hrec := ih (by simp) (fun x hx => hfree x (List.mem_cons_of_mem l hx))
      have hl := hfree l (List.mem_cons_self l _)
      show splitChars sep (joinChars sep (l :: l2 :: ls2)) = _
      have hjoin : joinChars sep (l :: l2 :: ls2) = l ++ sep :: joinChars sep (l2 :: ls2) := rfl
      rw [hjoin]
      clear hjoin ih hne hfree
      induction l with
      | nil =>
        show splitChars sep (sep :: joinChars sep (l2 :: ls2)) = [] :: l2 :: ls2
        unfold splitChars
        rw [if_pos rfl, hrec]
      | cons c cs ihc =>
        have hc : c ≠ sep := fun h => hl (h ▸ List.mem_cons_self c cs)
        have hcs : sep ∉ cs := fun h => hl (List.mem_cons_of_mem c h)
        have := ihc hcs
        show splitChars sep (c :: (cs ++ sep :: joinChars sep (l2 :: ls2))) = (c :: cs) :: l2 :: ls2
        unfold splitChars
        rw [if_neg (fun h => hc h)]
        rw [this]

theorem jsSplit_ne_nil (p : String) : jsSplit '/' p ≠ [] := by
  simp [jsSplit, splitChars_ne_nil]

theorem jsSplit_sep_free (p : String) : ∀ s ∈ jsSplit '/' p, '/' ∉ s.data := by
  intro s hs
  simp only [jsSplit, List.mem_map] at hs
  obtain ⟨l, hl, rfl⟩ := hs
  exact sep_not_mem_splitChars '/' p.data l hl

theorem jsSplit_jsJoin (l : List String) (hne : l ≠ []) (hfree : ∀ s ∈ l, '/' ∉ s.data) :
    jsSplit '/' (jsJoin '/' l) = l := by
  unfold jsSplit jsJoin
  have hd : (String.mk (joinChars '/' (l.map String.data))).data
      = joinChars '/' (l.map String.data) := rfl
  rw [hd, splitChars_joinChars '/' (l.map String.data) (by simpa using hne)
    (by intro cl hcl
        obtain ⟨x, hx, rfl⟩ := List.mem_map.mp hcl
        exact hfree x hx)]
  rw [List.map_map]
  have : (String.mk ∘ String.data) = id := by
    funext x
    rfl
  simp [this]

theorem joinChars_append_singleton (sep : Char) (L : List (List Char)) (x : List Char)
    (h : L ≠ []) : joinChars sep (L ++ [x]) = joinChars sep L ++ sep :: x := by
  induction L with
  | nil => exact absurd rfl h
  | cons l ls ih =>
    cases ls with
    | nil => rfl
    | cons l2 ls2 =>
      have := ih (by simp)
      show joinChars sep (l :: ((l2 :: ls2) ++ [x])) = _
      have h1 : joinChars sep (l :: ((l2 :: ls2) ++ [x]))
          = l ++ sep :: joinChars sep ((l2 :: ls2) ++ [x]) := by
        cases ls2 <;> rfl
      rw [h1, this]
      simp [joinChars]

theorem jsJoin_append_singleton (l : List String) (x : String) (hne : l ≠ []) :
    jsJoin '/' (l ++ [x]) = jsJoin '/' l ++ "/" ++ x := by
  unfold jsJoin
  have h1 : (l ++ [x]).map String.data = l.map String.data ++ [x.data] := by simp
  rw [h1, joinChars_append_singleton '/' (l.map String.data) x.data (by simpa using hne)]
  apply String.ext
  simp [String.data_append]

theorem jsJoin_cons_ne_empty (x : String) (xs : List String) (hx : x ≠ "") :
    jsJoin '/' (x :: xs) ≠ "" := by
  intro hc
  have hd := congrArg String.data hc
  cases xs with
  | nil =>
    exact hx (String.ext (by simpa [jsJoin, joinChars] using hd))
  | cons y ys =>
    have : (jsJoin '/' (x :: y :: ys)).data
        = x.data ++ '/' :: joinChars '/' ((y :: ys).map String.data) := rfl
    rw [this] at hd
    simp at hd

theorem mk_data_eq (s : String) : String.mk s.data = s := rfl

theorem mapKeys_cons (e : String × FolderInfo) (m : List (String × FolderInfo)) :
    mapKeys (e :: m) = e.1 :: mapKeys m := rfl

theorem mapKeys_append (m₁ m₂ : List (String × FolderInfo)) :
    mapKeys (m₁ ++ m₂) = mapKeys m₁ ++ mapKeys m₂ := by
  simp [mapKeys]

theorem lookupMap_eq_none_iff (m : List (String × FolderInfo)) (k : String) :
    lookupMap m k = none ↔ k ∉ mapKeys m := by
  induction m with
  | nil => simp [lookupMap, mapKeys]
  | cons e rest ih =>
    obtain ⟨k', v⟩ := e
    by_cases h : k' = k
    · subst h
      simp [lookupMap, mapKeys_cons]
    · rw [mapKeys_cons]
      simp only [lookupMap, if_neg h, List.mem_cons, ih]
      constructor
      · rintro hnm (rfl | hm)
        · exact h rfl
        · exact hnm hm
      · intro hn hm
        exact hn (Or.inr hm)

theorem lookupMap_append_left {m₁ : List (String × FolderInfo)} {k : String}
    (h : k ∈ mapKeys m₁) (m₂ : List (String × FolderInfo)) :
    lookupMap (m₁ ++ m₂) k = lookupMap m₁ k := by
  induction m₁ with
  | nil => simp [mapKeys] at h
  | cons e rest ih =>
    obtain ⟨k', v⟩ := e
    by_cases hk : k' = k
    · simp [lookupMap, hk]
    · rw [mapKeys_cons] at h
      rcases List.mem_cons.mp h with rfl | hm
      · exact absurd rfl hk
      · simp [lookupMap, hk, ih hm]

theorem pushChild_of_not_mem {m : List (String × FolderInfo)} {k : String}
    (h : k ∉ mapKeys m) (r : Ref) : pushChild m k r = m := by
  induction m with
  | nil => rfl
  | cons e rest ih =>
    rw [mapKeys_cons] at h
    have h1 : e.1 ≠ k := fun hc => h (hc ▸ List.mem_cons_self _ _)
    have h2 : k ∉ mapKeys rest := fun hc => h (List.mem_cons_of_mem _ hc)
    show (if e.1 = k then _ else e) :: pushChild rest k r = e :: rest
    rw [if_neg h1, ih h2]

theorem mapKeys_pushChild (m : List (String × FolderInfo)) (k : String) (r : Ref) :
    mapKeys (pushChild m k r) = mapKeys m := by
  induction m with
  | nil => rfl
  | cons e rest ih =>
    show mapKeys ((if e.1 = k then _ else e) :: pushChild rest k r) = _
    rw [mapKeys_cons, mapKeys_cons, ih]
    by_cases h : e.1 = k
    · rw [if_pos h]
    · rw [if_neg h]

theorem mem_mapKeys_decomp {m : List (String × FolderInfo)} {k : String}
    (h : k ∈ mapKeys m) :
    ∃ pre info post, m = pre ++ (k, info) :: post := by
  induction m with
  | nil => simp [mapKeys] at h
  | cons e rest ih =>
    obtain ⟨k', v⟩ := e
    by_cases hk : k' = k
    · exact ⟨[], v, rest, by simp [hk]⟩
    · rw [mapKeys_cons] at h
      rcases List.mem_cons.mp h with rfl | hm
      · exact absurd rfl hk
      · obtain ⟨pre, info, post, hrest⟩ := ih hm
        exact ⟨(k', v) :: pre, info, post, by simp [hrest]⟩

theorem pushChild_decomp {pre post : List (String × FolderInfo)} {k : String}
    {info : FolderInfo}
    (hnd : (mapKeys (pre ++ (k, info) :: post)).Nodup) (r : Ref) :
    pushChild (pre ++ (k, info) :: post) k r
      = pre ++ (k, { info with children := info.children ++ [r] }) :: post := by
  induction pre with
  | nil =>
    simp only [List.nil_append] at hnd ⊢
    rw [mapKeys_cons] at hnd
    have hpost : k ∉ mapKeys post := (List.nodup_cons.mp hnd).1
    show (if k = k then _ else _) :: pushChild post k r = _
    rw [if_pos rfl, pushChild_of_not_mem hpost r]
  | cons e pre ih =>
    rw [List.cons_append] at hnd ⊢
    rw [mapKeys_cons] at hnd
    have hnd2 := (List.nodup_cons.mp hnd).2
    have hne : e.1 ≠ k := by
      intro hc
      have : k ∈ mapKeys (pre ++ (k, info) :: post) := by
        rw [mapKeys_append, mapKeys_cons]
        exact List.mem_append_right _ (List.mem_cons_self _ _)
      exact (List.nodup_cons.mp hnd).1 (hc ▸ this)
    show (if e.1 = k then _ else e) :: pushChild (pre ++ (k, info) :: post) k r = _
    rw [if_neg hne, ih hnd2]
    rfl

theorem suffixPtr_append {m₁ m₂ : List (String × FolderInfo)}
    (h₁ : SuffixPtr m₁) (h₂ : SuffixPtr m₂) : SuffixPtr (m₁ ++ m₂) := by
  induction m₁ with
  | nil => simpa using h₂
  | cons e rest ih =>
    obtain ⟨he, hrest⟩ := h₁
    refine ⟨?_, ih hrest⟩
    intro q hq
    show q ∈ mapKeys (rest ++ m₂)
    rw [mapKeys_append]
    exact List.mem_append_left _ (he q hq)

theorem suffixPtr_set_children {pre post : List (String × FolderInfo)} {k : String}
    {info : FolderInfo} {cs : List Ref}
    (h : SuffixPtr (pre ++ (k, info) :: post))
    (hnew : ∀ q, Ref.folder q ∈ cs → Ref.folder q ∈ info.children ∨ q ∈ mapKeys post) :
    SuffixPtr (pre ++ (k, { info with children := cs }) :: post) := by
  induction pre with
  | nil =>
    obtain ⟨hh, ht⟩ := h
    refine ⟨?_, ht⟩
    intro q hq
    rcases hnew q hq with hold | hpost
    · exact hh q hold
    · exact hpost
  | cons e pre ih =>
    obtain ⟨hh, ht⟩ := h
    refine ⟨?_, ih ht⟩
    intro q hq
    have hmem : q ∈ mapKeys (pre ++ (k, info) :: post) := hh q hq
    show q ∈ mapKeys (pre ++ (k, { info with children := cs }) :: post)
    rw [mapKeys_append, mapKeys_cons] at hmem ⊢
    rw [List.mem_append] at hmem ⊢
    rcases hmem with hl | hr
    · exact Or.inl hl
    · rcases List.mem_cons.mp hr with rfl | hm
      · exact Or.inr (List.mem_cons_self _ _)
      · exact Or.inr (List.mem_cons_of_mem _ hm)

theorem childRefs_append (m₁ m₂ : List (String × FolderInfo)) :
    childRefs (m₁ ++ m₂) = childRefs m₁ ++ childRefs m₂ := by
  simp [childRefs]

theorem flattenListDepth_append (d : Nat) (l₁ l₂ : List FileNode) :
    flattenListDepth d (l₁ ++ l₂) = flattenListDepth d l₁ ++ flattenListDepth d l₂ := by
  induction l₁ with
  | nil => rfl
  | cons x xs ih => simp [flattenListDepth, ih]

theorem flattenListDepth_filterMap {α : Type} (g : α → Option FileNode) (l : List α) (d : Nat) :
    flattenListDepth d (l.filterMap g)
      = l.flatMap fun a => (g a).toList.flatMap (flattenNodeDepth d) := by
  induction l with
  | nil => rfl
  | cons a l ih =>
    cases hg : g a with
    | none => simp [List.filterMap_cons, hg, ih]
    | some nd => simp [List.filterMap_cons, hg, flattenListDepth, ih]

theorem resolveFlatten_nil (R : List (String × FileNode)) : resolveFlatten R [] = [] := rfl

theorem resolveFlatten_cons (R : List (String × FileNode)) (r : Ref) (rs : List Ref) :
    resolveFlatten R (r :: rs)
      = (resolveRef R r).toList.flatMap (flattenNodeDepth (depthOf (refPath r)))
        ++ resolveFlatten R rs := by
  simp [resolveFlatten]

theorem resolveFlatten_append (R : List (String × FileNode)) (l₁ l₂ : List Ref) :
    resolveFlatten R (l₁ ++ l₂) = resolveFlatten R l₁ ++ resolveFlatten R l₂ := by
  simp [resolveFlatten]

theorem resolveRef_cons_ne {p : String} {fn : FileNode} {R : List (String × FileNode)}
    {q : String} (h : p ≠ q) :
    resolveRef ((p, fn) :: R) (.folder q) = resolveRef R (.folder q) := by
  simp [resolveRef, lookupNode, h]

theorem mem_folderKeys {rs : List Ref} {p : String} :
    p ∈ folderKeys rs ↔ Ref.folder p ∈ rs := by
  induction rs with
  | nil => simp [folderKeys]
  | cons r rs ih =>
    cases r with
    | file d => simp [folderKeys, List.filterMap_cons] at ih ⊢; exact ih
    | folder q =>
      simp only [folderKeys, List.filterMap_cons] at ih ⊢
      simp only [List.mem_cons, ih]
      constructor
      · rintro (rfl | hm)
        · exact Or.inl rfl
        · exact Or.inr hm
      · rintro (hq | hm)
        · exact Or.inl (by injection hq)
        · exact Or.inr hm

theorem folderKeys_append (l₁ l₂ : List Ref) :
    folderKeys (l₁ ++ l₂) = folderKeys l₁ ++ folderKeys l₂ := by
  simp [folderKeys]

theorem suffixPtr_childRefs_subset {m : List (String × FolderInfo)}
    (h : SuffixPtr m) : ∀ q, Ref.folder q ∈ childRefs m → q ∈ mapKeys m := by
  induction m with
  | nil => simp [childRefs]
  | cons e rest ih =>
    obtain ⟨he, hrest⟩ := h
    intro q hq
    have : childRefs (e :: rest) = e.2.children ++ childRefs rest := by
      simp [childRefs]
    rw [this, List.mem_append] at hq
    rw [mapKeys_cons]
    rcases hq with hq | hq
    · exact List.mem_cons_of_mem _ (he q hq)
    · exact List.mem_cons_of_mem _ (ih hrest q hq)

theorem resolveFlatten_congr_no_p {p : String} {fn : FileNode} {R : List (String × FileNode)}
    {rs : List Ref} (h : p ∉ folderKeys rs) :
    resolveFlatten ((p, fn) :: R) rs = resolveFlatten R rs := by
  induction rs with
  | nil => rfl
  | cons r rs ih =>
    have h1 : p ∉ folderKeys rs := by
      intro hc
      apply h
      cases r <;> simp [folderKeys, List.filterMap_cons] at hc ⊢ <;>
        first
          | exact hc
          | exact Or.inr hc
    rw [resolveFlatten_cons, resolveFlatten_cons, ih h1]
    congr 1
    cases r with
    | file d => rfl
    | folder q =>
      have hpq : p ≠ q := by
        intro hc
        apply h
        rw [mem_folderKeys]
        rw [hc]
        exact List.mem_cons_self _ _
      rw [resolveRef_cons_ne hpq]

theorem flatMap_congr_mem {α β : Type} {l : List α} {f g : α → List β}
    (h : ∀ a ∈ l, f a = g a) : l.flatMap f = l.flatMap g := by
  induction l with
  | nil => rfl
  | cons a l ih =>
    simp only [List.flatMap_cons]
    rw [h a (List.mem_cons_self _ _), ih fun x hx => h x (List.mem_cons_of_mem _ hx)]

theorem resolveFlatten_depth_congr {R : List (String × FileNode)} {cs : List Ref} {d : Nat}
    (h : ∀ r ∈ cs, depthOf (refPath r) = d) :
    (cs.flatMap fun r => (resolveRef R r).toList.flatMap (flattenNodeDepth d))
      = resolveFlatten R cs := by
  unfold resolveFlatten
  apply flatMap_congr_mem
  intro r hr
  rw [h r hr]

theorem folderKeys_folder_cons (p : String) (l : List Ref) :
    folderKeys (Ref.folder p :: l) = p :: folderKeys l := rfl

theorem fileDatas_append (l₁ l₂ : List Ref) :
    fileDatas (l₁ ++ l₂) = fileDatas l₁ ++ fileDatas l₂ := by
  simp [fileDatas]

theorem withDepth_append (l₁ l₂ : List NData) :
    withDepth (l₁ ++ l₂) = withDepth l₁ ++ withDepth l₂ := by
  simp [withDepth]

theorem withDepth_cons (x : NData) (l : List NData) :
    withDepth (x :: l) = (depthOf x.path, x) :: withDepth l := rfl

theorem fileDatas_folder_cons (p : String) (l : List Ref) :
    fileDatas (Ref.folder p :: l) = fileDatas l := rfl

/-- The master correspondence: for a well-formed store (unique keys,
forward-pointing children, every folder referenced exactly once, children
one level below their parent), the depth-annotated flattening of the
resolved forest is, as a multiset, the leaf data of all stored file
references plus the folder data of all entries, each at the depth its path
prescribes. -/
theorem resolveFlatten_master (m : List (String × FolderInfo)) (tree : List Ref)
    (h0 : (mapKeys m).Nodup)
    (h2 : SuffixPtr m)
    (h1 : ∀ q, (folderKeys (tree ++ childRefs m)).count q = (mapKeys m).count q)
    (hd : ∀ e ∈ m, ∀ r ∈ e.2.children, depthOf (refPath r) = depthOf e.1 + 1) :
    (↑((resolveFlatten (resolveMap m) tree).map (fun x => (x.1, x.2.nData)))
        : Multiset (Nat × NData))
      = ↑(withDepth (fileDatas (tree ++ childRefs m)))
        + ↑(withDepth (m.map entryNData)) := by
  induction m generalizing tree with
  | nil =>
    have hilft : folderKeys tree = [] := by
      have := h1
      simp only [childRefs, List.flatMap_nil, List.append_nil, mapKeys, List.map_nil] at this
      rcases h : folderKeys tree with _ | ⟨q, qs⟩
      · rfl
      · have hq := this q
        rw [h] at hq
        simp [List.count_cons] at hq
    clear h0 h2 h1 hd
    induction tree with
    | nil => simp [resolveFlatten, withDepth, fileDatas, childRefs]
    | cons r rs ih =>
      cases r with
      | folder p =>
        exfalso
        have : p ∈ folderKeys (Ref.folder p :: rs) := mem_folderKeys.mpr (List.mem_cons_self _ _)
        rw [hilft] at this
        simp at this
      | file d =>
        have h1 : folderKeys rs = [] := by
          have : folderKeys (Ref.file d :: rs) = folderKeys rs := by
            simp [folderKeys, List.filterMap_cons, refNData]
          rw [← this, hilft]
        have ihr := ih h1
        rw [resolveFlatten_cons]
        have hres : resolveRef (resolveMap []) (Ref.file d) = some (toLeafNode d) := rfl
        rw [hres]
        simp only [Option.toList_some, List.flatMap_cons, List.flatMap_nil, List.append_nil]
        have hflat : flattenNodeDepth (depthOf (refPath (Ref.file d))) (toLeafNode d)
            = [(depthOf d.path, toLeafNode d)] := rfl
        rw [hflat]
        simp only [List.singleton_append, List.map_cons]
        have hfd : fileDatas ((Ref.file d :: rs) ++ childRefs [])
            = (toLeafNode d).nData :: fileDatas (rs ++ childRefs []) := by
          simp [fileDatas, List.filterMap_cons, refNData, fileND, toLeafNode, FileNode.nData,
            FileNode.path, FileNode.name, FileNode.isFolder, FileNode.size,
            FileNode.lastModified]
        rw [hfd]
        have hwd : withDepth ((toLeafNode d).nData :: fileDatas (rs ++ childRefs []))
            = (depthOf d.path, (toLeafNode d).nData)
                :: withDepth (fileDatas (rs ++ childRefs [])) := by
          simp [withDepth, toLeafNode, FileNode.nData, FileNode.path, FileNode.name,
            FileNode.isFolder, FileNode.size, FileNode.lastModified]
        rw [hwd]
        simp only [← Multiset.cons_coe]
        rw [ihr]
        rfl
  | cons e rest ih =>
    obtain ⟨p, info⟩ := e
    -- key facts
    have hspn : p ∉ mapKeys rest := by
      rw [mapKeys_cons] at h0
      exact (List.nodup_cons.mp h0).1
    have h0r : (mapKeys rest).Nodup := by
      rw [mapKeys_cons] at h0
      exact (List.nodup_cons.mp h0).2
    have h2h := h2.1
    have h2r := h2.2
    have hchsplit : childRefs ((p, info) :: rest) = info.children ++ childRefs rest := by
      simp [childRefs]
    have hpnotch : p ∉ folderKeys (childRefs ((p, info) :: rest)) := by
      rw [hchsplit, folderKeys_append]
      intro hc
      rcases List.mem_append.mp hc with hc | hc
      · exact hspn (h2h p (mem_folderKeys.mp hc))
      · exact hspn (suffixPtr_childRefs_subset h2r p (mem_folderKeys.mp hc))
    have hcount : (folderKeys tree).count p = 1 := by
      have := h1 p
      rw [folderKeys_append, List.count_append] at this
      rw [List.count_eq_zero.mpr (fun hc => hpnotch hc)] at this
      rw [mapKeys_cons, List.count_cons] at this
      rw [List.count_eq_zero.mpr hspn] at this
      simpa using this
    have hpintree : Ref.folder p ∈ tree := by
      rw [← mem_folderKeys]
      exact List.count_pos_iff.mp (by omega)
    obtain ⟨t1, t2, htree⟩ := List.append_of_mem hpintree
    subst htree
    have hfkt : folderKeys (t1 ++ Ref.folder p :: t2)
        = folderKeys t1 ++ p :: folderKeys t2 := by
      rw [folderKeys_append]
      rfl
    rw [hfkt, List.count_append, List.count_cons_self] at hcount
    have hp1 : p ∉ folderKeys t1 := by
      rw [← List.count_eq_zero]
      omega
    have hp2 : p ∉ folderKeys t2 := by
      rw [← List.count_eq_zero]
      omega
    -- the resolved head node
    have hrm : resolveMap ((p, info) :: rest)
        = (p, FileNode.mk p info.name true info.size info.lastModified
            (some (info.children.filterMap (resolveRef (resolveMap rest)))))
          :: resolveMap rest := rfl
    have hone : (resolveRef (resolveMap ((p, info) :: rest)) (Ref.folder p)).toList.flatMap
          (flattenNodeDepth (depthOf (refPath (Ref.folder p))))
        = (depthOf p, FileNode.mk p info.name true info.size info.lastModified
              (some (info.children.filterMap (resolveRef (resolveMap rest)))))
            :: resolveFlatten (resolveMap rest) info.children := by
      have hres : resolveRef (resolveMap ((p, info) :: rest)) (Ref.folder p)
          = some (FileNode.mk p info.name true info.size info.lastModified
              (some (info.children.filterMap (resolveRef (resolveMap rest))))) := by
        rw [hrm]
        simp [resolveRef, lookupNode]
      rw [hres]
      simp only [Option.toList_some, List.flatMap_cons, List.flatMap_nil, List.append_nil]
      rw [show refPath (Ref.folder p) = p from rfl]
      show (depthOf p, _) :: flattenListDepth (depthOf p + 1)
          (info.children.filterMap (resolveRef (resolveMap rest))) = _
      congr 1
      rw [flattenListDepth_filterMap]
      exact resolveFlatten_depth_congr
        (fun r hr => hd (p, info) (List.mem_cons_self _ _) r hr)
    have ht1 : resolveFlatten (resolveMap ((p, info) :: rest)) t1
        = resolveFlatten (resolveMap rest) t1 := by
      rw [hrm]
      exact resolveFlatten_congr_no_p hp1
    have ht2 : resolveFlatten (resolveMap ((p, info) :: rest)) t2
        = resolveFlatten (resolveMap rest) t2 := by
      rw [hrm]
      exact resolveFlatten_congr_no_p hp2
    -- hypotheses of the induction hypothesis
    have h1x : ∀ q, (folderKeys ((t1 ++ t2 ++ info.children) ++ childRefs rest)).count q
        = (mapKeys rest).count q := by
      intro q
      have hq := h1 q
      simp only [hchsplit, folderKeys_append, folderKeys_folder_cons, mapKeys_cons,
        List.count_append] at hq
      simp only [folderKeys_append, List.count_append]
      have hc1 : ∀ r, r ∈ folderKeys info.children → r ∈ mapKeys rest := by
        intro r hr
        exact h2h r (mem_folderKeys.mp hr)
      have hc2 : ∀ r, r ∈ folderKeys (childRefs rest) → r ∈ mapKeys rest := by
        intro r hr
        exact suffixPtr_childRefs_subset h2r r (mem_folderKeys.mp hr)
      by_cases hqp : q = p
      · subst hqp
        rw [List.count_cons_self, List.count_cons_self] at hq
        have z1 : List.count q (folderKeys t1) = 0 := List.count_eq_zero.mpr hp1
        have z2 : List.count q (folderKeys t2) = 0 := List.count_eq_zero.mpr hp2
        have z3 : List.count q (folderKeys info.children) = 0 :=
          List.count_eq_zero.mpr fun hc => hspn (hc1 q hc)
        have z4 : List.count q (folderKeys (childRefs rest)) = 0 :=
          List.count_eq_zero.mpr fun hc => hspn (hc2 q hc)
        have z5 : List.count q (mapKeys rest) = 0 := List.count_eq_zero.mpr hspn
        omega
      · rw [List.count_cons_of_ne hqp, List.count_cons_of_ne hqp] at hq
        omega
    have hdx : ∀ e ∈ rest, ∀ r ∈ e.2.children, depthOf (refPath r) = depthOf e.1 + 1 :=
      fun e he => hd e (List.mem_cons_of_mem _ he)
    have hIH := ih (t1 ++ t2 ++ info.children) h0r h2r h1x hdx
    -- assemble by counting
    rw [resolveFlatten_append, resolveFlatten_cons, hone, ht1, ht2]
    rw [resolveFlatten_append, resolveFlatten_append] at hIH
    have hnd : (FileNode.mk p info.name true info.size info.lastModified
        (some (info.children.filterMap (resolveRef (resolveMap rest))))).nData
        = entryNData (p, info) := rfl
    have hpd : (entryNData (p, info)).path = p := rfl
    apply Multiset.ext.mpr
    intro x
    rw [hchsplit]
    simp only [List.map_append, List.map_cons, fileDatas_append, withDepth_append,
      fileDatas_folder_cons, withDepth_cons, hnd, hpd, ← Multiset.coe_add,
      ← Multiset.cons_coe] at hIH ⊢
    have hc := congrArg (Multiset.count x) hIH
    simp only [Multiset.count_add] at hc ⊢
    by_cases hx : x = (depthOf p, entryNData (p, info))
    · subst hx
      rw [Multiset.count_cons_self, Multiset.count_cons_self]
      omega
    · rw [Multiset.count_cons_of_ne hx, Multiset.count_cons_of_ne hx]
      omega

theorem childRefs_cons (e : String × FolderInfo) (m : List (String × FolderInfo)) :
    childRefs (e :: m) = e.2.children ++ childRefs m := by
  simp [childRefs]

theorem jsJoin_singleton (x : String) : jsJoin '/' [x] = x := rfl

theorem fileDatas_file_cons (d : LeafData) (l : List Ref) :
    fileDatas (Ref.file d :: l) = fileND d :: fileDatas l := rfl

/-- Effect of `pushChild` on a well-formed map: exactly the unique entry
keyed `k` has `r` appended to its children. -/
theorem pushChild_effects {m : List (String × FolderInfo)} {k : String}
    (hnd : (mapKeys m).Nodup) (hk : k ∈ mapKeys m) (r : Ref) :
    ∃ pre i post, m = pre ++ (k, i) :: post ∧
      pushChild m k r = pre ++ (k, { i with children := i.children ++ [r] }) :: post := by
  obtain ⟨pre, i, post, hdec⟩ := mem_mapKeys_decomp hk
  subst hdec
  exact ⟨pre, i, post, rfl, pushChild_decomp hnd r⟩

/-- Counting folder references after a `pushChild`. -/
theorem count_folderKeys_pushChild {m : List (String × FolderInfo)} {k : String}
    (hnd : (mapKeys m).Nodup) (hk : k ∈ mapKeys m) (r : Ref) (q : String) :
    (folderKeys (childRefs (pushChild m k r))).count q
      = (folderKeys (childRefs m)).count q + (folderKeys [r]).count q := by
  obtain ⟨pre, i, post, hm, hp⟩ := pushChild_effects hnd hk r
  subst hm
  rw [hp]
  rw [childRefs_append, childRefs_cons, childRefs_append, childRefs_cons]
  simp only [folderKeys_append, List.count_append]
  omega

/-- Membership in the children lists after a `pushChild`. -/
theorem mem_children_pushChild {m : List (String × FolderInfo)} {k : String}
    (hnd : (mapKeys m).Nodup) (hk : k ∈ mapKeys m) (r : Ref)
    {e : String × FolderInfo} (he : e ∈ pushChild m k r) :
    ∀ x ∈ e.2.children,
      (∃ e2 ∈ m, e2.1 = e.1 ∧ e2.2.name = e.2.name ∧ e2.2.size = e.2.size ∧
        e2.2.lastModified = e.2.lastModified ∧ x ∈ e2.2.children) ∨ (x = r ∧ e.1 = k) := by
  obtain ⟨pre, i, post, hm, hp⟩ := pushChild_effects hnd hk r
  subst hm
  rw [hp] at he
  intro x hx
  rcases List.mem_append.mp he with hpre | hrest
  · exact Or.inl ⟨e, List.mem_append_left _ hpre, rfl, rfl, rfl, rfl, hx⟩
  · rcases List.mem_cons.mp hrest with rfl | hpost
    · rcases List.mem_append.mp hx with hold | hnew
      · exact Or.inl ⟨(k, i), List.mem_append_right _ (List.mem_cons_self _ _), rfl, rfl,
          rfl, rfl, hold⟩
      · rcases List.mem_singleton.mp hnew with rfl
        exact Or.inr ⟨rfl, rfl⟩
    · exact Or.inl ⟨e, List.mem_append_right _ (List.mem_cons_of_mem _ hpost), rfl, rfl,
        rfl, rfl, hx⟩

/-- `SuffixPtr` after pushing a file reference. -/
theorem suffixPtr_pushChild_file {m : List (String × FolderInfo)} {k : String}
    (hnd : (mapKeys m).Nodup) (hk : k ∈ mapKeys m) (d : LeafData)
    (h : SuffixPtr m) : SuffixPtr (pushChild m k (Ref.file d)) := by
  obtain ⟨pre, i, post, hm, hp⟩ := pushChild_effects hnd hk (Ref.file d)
  subst hm
  rw [hp]
  apply suffixPtr_set_children h
  intro q hq
  rcases List.mem_append.mp hq with hold | hnew
  · exact Or.inl hold
  · rcases List.mem_singleton.mp hnew with h2
    cases h2

/-- `SuffixPtr` after pushing a folder reference whose key is the last
entry of the map. -/
theorem suffixPtr_pushChild_last {m : List (String × FolderInfo)} {k cp : String}
    {ci : FolderInfo}
    (hnd : (mapKeys (m ++ [(cp, ci)])).Nodup) (hk : k ∈ mapKeys m)
    (h : SuffixPtr (m ++ [(cp, ci)])) :
    SuffixPtr (pushChild (m ++ [(cp, ci)]) k (Ref.folder cp)) := by
  obtain ⟨pre0, i0, post0, hm⟩ := mem_mapKeys_decomp hk
  subst hm
  have hassoc : (pre0 ++ (k, i0) :: post0) ++ [(cp, ci)]
      = pre0 ++ (k, i0) :: (post0 ++ [(cp, ci)]) := by simp
  rw [hassoc] at hnd h ⊢
  rw [pushChild_decomp hnd (Ref.folder cp)]
  apply suffixPtr_set_children h
  intro q hq
  rcases List.mem_append.mp hq with hold | hnew
  · exact Or.inl hold
  · rcases List.mem_singleton.mp hnew with h2
    injection h2 with h3
    subst h3
    right
    rw [mapKeys_append]
    exact List.mem_append_right _ (by simp [mapKeys])

theorem mem_pushChild_meta {m : List (String × FolderInfo)} {k : String}
    (hnd : (mapKeys m).Nodup) (hk : k ∈ mapKeys m) (r : Ref)
    {e : String × FolderInfo} (he : e ∈ pushChild m k r) :
    ∃ e2 ∈ m, e2.1 = e.1 ∧ e2.2.name = e.2.name ∧ e2.2.size = e.2.size ∧
      e2.2.lastModified = e.2.lastModified := by
  obtain ⟨pre, i, post, hm, hp⟩ := pushChild_effects hnd hk r
  subst hm
  rw [hp] at he
  rcases List.mem_append.mp he with hpre | hrest
  · exact ⟨e, List.mem_append_left _ hpre, rfl, rfl, rfl, rfl⟩
  · rcases List.mem_cons.mp hrest with rfl | hpost
    · exact ⟨(k, i), List.mem_append_right _ (List.mem_cons_self _ _), rfl, rfl, rfl, rfl⟩
    · exact ⟨e, List.mem_append_right _ (List.mem_cons_of_mem _ hpost), rfl, rfl, rfl, rfl⟩

theorem fileDatas_pushChild_folder {m : List (String × FolderInfo)} {k : String}
    (hnd : (mapKeys m).Nodup) (hk : k ∈ mapKeys m) (q : String) :
    fileDatas (childRefs (pushChild m k (Ref.folder q))) = fileDatas (childRefs m) := by
  obtain ⟨pre, i, post, hm, hp⟩ := pushChild_effects hnd hk (Ref.folder q)
  subst hm
  rw [hp]
  rw [childRefs_append, childRefs_cons, childRefs_append, childRefs_cons]
  simp only [fileDatas_append]
  have hno : fileDatas [Ref.folder q] = [] := rfl
  simp [hno]

theorem count_fileDatas_pushChild_file {m : List (String × FolderInfo)} {k : String}
    (hnd : (mapKeys m).Nodup) (hk : k ∈ mapKeys m) (d : LeafData) (x : NData) :
    (fileDatas (childRefs (pushChild m k (Ref.file d)))).count x
      = (fileDatas (childRefs m)).count x + (if x = fileND d then 1 else 0) := by
  obtain ⟨pre, i, post, hm, hp⟩ := pushChild_effects hnd hk (Ref.file d)
  subst hm
  rw [hp]
  rw [childRefs_append, childRefs_cons, childRefs_append, childRefs_cons]
  simp only [fileDatas_append, List.count_append]
  have hone : fileDatas [Ref.file d] = [fileND d] := rfl
  rw [hone]
  by_cases hx : x = fileND d
  · subst hx
    rw [if_pos rfl]
    have hone2 : List.count (fileND d) [fileND d] = 1 := by simp
    omega
  · rw [if_neg hx]
    have hz : List.count x [fileND d] = 0 := by
      rw [List.count_eq_zero]
      simpa using hx
    omega

theorem take_ne_nil_of_ge_one {parts : List String} {j : Nat} (h1 : 1 ≤ j)
    (hj : j ≤ parts.length) : parts.take j ≠ [] := by
  cases parts with
  | nil => simp at hj; omega
  | cons p0 prest =>
    cases j with
    | zero => omega
    | succ j2 => simp [List.take_succ_cons]

theorem segs_jsJoin_take {parts : List String} (hfree : ∀ s ∈ parts, '/' ∉ s.data)
    {j : Nat} (h1 : 1 ≤ j) (hj : j ≤ parts.length) :
    segs (jsJoin '/' (parts.take j)) = parts.take j := by
  unfold segs
  exact jsSplit_jsJoin _ (take_ne_nil_of_ge_one h1 hj)
    (fun s hs => hfree s (List.mem_of_mem_take hs))

theorem depthOf_jsJoin_take {parts : List String} (hfree : ∀ s ∈ parts, '/' ∉ s.data)
    {j : Nat} (h1 : 1 ≤ j) (hj : j ≤ parts.length) :
    depthOf (jsJoin '/' (parts.take j)) = j - 1 := by
  unfold depthOf
  rw [segs_jsJoin_take hfree h1 hj, List.length_take]
  omega

theorem take_succ_getD {parts : List String} {k : Nat} (hk : k < parts.length) :
    parts.take (k + 1) = parts.take k ++ [parts.getD k ""] := by
  rw [List.take_succ]
  congr 1
  rw [List.getElem?_eq_getElem hk]
  simp [List.getD_eq_getElem?_getD, List.getElem?_eq_getElem hk]

theorem stepFolder_inv (now : Int) {parts : List String}
    (hfree : ∀ s ∈ parts, '/' ∉ s.data)
    (hp0 : parts.getD 0 "" ≠ "")
    {k : Nat} (hk : k < parts.length - 1)
    {st : BuildState} (hinv : Inv now st)
    (hpref : ∀ j, 1 ≤ j → j ≤ k → jsJoin '/' (parts.take j) ∈ mapKeys st.nodeMap)
    {acc1 : String} (hacc : acc1 = if k = 0 then "" else jsJoin '/' (parts.take k)) :
    (stepFolder parts now (acc1, st) k).1 = jsJoin '/' (parts.take (k + 1)) ∧
    Inv now (stepFolder parts now (acc1, st) k).2 ∧
    fileDatas (allRefs (stepFolder parts now (acc1, st) k).2) = fileDatas (allRefs st) ∧
    (∀ q ∈ mapKeys st.nodeMap, q ∈ mapKeys (stepFolder parts now (acc1, st) k).2.nodeMap) ∧
    (∀ j, 1 ≤ j → j ≤ k + 1 →
      jsJoin '/' (parts.take j) ∈ mapKeys (stepFolder parts now (acc1, st) k).2.nodeMap) := by
  have hlen2 : 2 ≤ parts.length := by
    rcases parts with _ | ⟨a, _ | ⟨b, l⟩⟩ <;> simp_all
  have hlenk : k < parts.length := by omega
  obtain ⟨p0, prest, hparts⟩ : ∃ p0 prest, parts = p0 :: prest := by
    cases parts with
    | nil => simp at hlen2
    | cons a l => exact ⟨a, l, rfl⟩
  have hp0' : p0 ≠ "" := by
    rw [hparts] at hp0
    simpa using hp0
  have htake1 : parts.take 1 = [p0] := by
    rw [hparts]
    rfl
  have hcur : (if acc1 ≠ "" then acc1 ++ "/" ++ parts.getD k "" else parts.getD k "")
      = jsJoin '/' (parts.take (k + 1)) := by
    rcases Nat.eq_zero_or_pos k with hk0 | hkpos
    · subst hk0
      rw [hacc]
      simp only [if_pos rfl, ne_eq, not_true_eq_false, if_false]
      rw [htake1, jsJoin_singleton, hparts]
      rfl
    · have hkne : k ≠ 0 := by omega
      rw [hacc, if_neg hkne]
      have htk : parts.take k = p0 :: prest.take (k - 1) := by
        rw [hparts]
        obtain ⟨k2, rfl⟩ : ∃ k2, k = k2 + 1 := ⟨k - 1, by omega⟩
        simp [List.take_succ_cons]
      have hne : jsJoin '/' (parts.take k) ≠ "" := by
        rw [htk]
        exact jsJoin_cons_ne_empty p0 _ hp0'
      rw [if_pos hne, ← jsJoin_append_singleton _ _ (by rw [htk]; simp),
        ← take_succ_getD hlenk]
  have hdep_cp : depthOf (jsJoin '/' (parts.take (k + 1))) = k := by
    rw [depthOf_jsJoin_take hfree (by omega) (by omega)]
    omega
  simp only [stepFolder]
  rw [hcur]
  set cp := jsJoin '/' (parts.take (k + 1)) with hcpdef
  set info0 : FolderInfo := { name := parts.getD k "", size := 0, lastModified := now, children := [] } with hinfo0
  cases hlook : lookupMap st.nodeMap cp with
  | some v =>
    refine ⟨rfl, hinv, rfl, fun q hq => hq, ?_⟩
    intro j h1 hj
    rcases Nat.lt_or_ge j (k + 1) with hjk | hjk
    · exact hpref j h1 (by omega)
    · have : j = k + 1 := by omega
      subst this
      by_contra hc
      rw [← lookupMap_eq_none_iff] at hc
      rw [hc] at hlook
      cases hlook
  | none =>
    have hcpnot : cp ∉ mapKeys st.nodeMap := (lookupMap_eq_none_iff _ _).mp hlook
    have hnd1 : (mapKeys (st.nodeMap ++ [(cp,
        info0)])).Nodup := by
      rw [mapKeys_append]
      rw [List.nodup_append]
      refine ⟨hinv.nodup, by simp [mapKeys], ?_⟩
      intro a ha hb
      simp [mapKeys] at hb
      subst hb
      exact hcpnot ha
    have hsp1 : SuffixPtr (st.nodeMap ++ [(cp,
        info0)]) := by
      apply suffixPtr_append hinv.sptr
      exact ⟨by simp, trivial⟩
    have hsegcp : segs cp = parts.take (k + 1) :=
      segs_jsJoin_take hfree (by omega) (by omega)
    have hmetanew : (segs cp).getLastD "" = parts.getD k "" := by
      rw [hsegcp, take_succ_getD hlenk, List.getLastD_concat]
    have hfmeta1 : ∀ e ∈ (st.nodeMap ++ [(cp,
        info0)]), e.2.size = 0 ∧ e.2.lastModified = now ∧
        e.2.name = (segs e.1).getLastD "" := by
      intro e he
      rcases List.mem_append.mp he with hold | hnew
      · exact hinv.fmeta e hold
      · rcases List.mem_singleton.mp hnew with rfl
        exact ⟨rfl, rfl, hmetanew.symm⟩
    have hcdep1 : ∀ e ∈ (st.nodeMap ++ [(cp,
        info0)]), ∀ r ∈ e.2.children,
        depthOf (refPath r) = depthOf e.1 + 1 := by
      intro e he r hr
      rcases List.mem_append.mp he with hold | hnew
      · exact hinv.cdep e hold r hr
      · rcases List.mem_singleton.mp hnew with rfl
        simp at hr
    rcases Nat.eq_zero_or_pos k with hk0 | hkpos
    · subst hk0
      rw [if_pos rfl]
      refine ⟨rfl, ?_, ?_, ?_, ?_⟩
      · refine ⟨hnd1, hsp1, ?_, hcdep1, ?_, hfmeta1⟩
        · intro q
          have hold := hinv.refs1 q
          have hch1 : childRefs [(cp, info0)] = [] := rfl
          have hmk1 : mapKeys [(cp, info0)] = [cp] := rfl
          have hfk1 : folderKeys [Ref.folder cp] = [cp] := rfl
          have hfk0 : folderKeys ([] : List Ref) = [] := rfl
          simp only [allRefs, childRefs_append, folderKeys_append, List.count_append,
            mapKeys_append, hch1, hmk1, hfk1, hfk0, List.count_nil] at hold ⊢
          by_cases hqcp : q = cp
          · have h1cp : List.count q [cp] = 1 := by
              rw [hqcp]
              simp
            have h0cp : List.count q (mapKeys st.nodeMap) = 0 := by
              rw [List.count_eq_zero, hqcp]
              exact hcpnot
            omega
          · have h0cp : List.count q [cp] = 0 := List.count_eq_zero.mpr (by simpa using hqcp)
            omega
        · intro r hr
          rcases List.mem_append.mp hr with hold | hnew
          · exact hinv.rdep r hold
          · rcases List.mem_singleton.mp hnew with rfl
            show depthOf cp = 0
            rw [hdep_cp]
      · have hch1 : childRefs [(cp, info0)] = [] := rfl
        have hfd1 : fileDatas [Ref.folder cp] = [] := rfl
        have hfd0 : fileDatas ([] : List Ref) = [] := rfl
        simp only [allRefs, childRefs_append, fileDatas_append, hch1, hfd1, hfd0,
          List.append_nil, List.nil_append]
      · intro q hq
        rw [mapKeys_append]
        exact List.mem_append_left _ hq
      · intro j h1 hj
        have hj1 : j = 1 := by omega
        subst hj1
        rw [mapKeys_append]
        apply List.mem_append_right
        have hcp1 : jsJoin '/' (parts.take 1) = cp := hcpdef.symm
        rw [hcp1]
        simp [mapKeys]
    · have hkne : k ≠ 0 := by omega
      rw [if_neg hkne]
      have hpp : jsJoin '/' (parts.take k) ∈ mapKeys st.nodeMap :=
        hpref k hkpos le_rfl
      have hlookpp : lookupMap (st.nodeMap ++ [(cp,
          info0)]) (jsJoin '/' (parts.take k))
          = lookupMap st.nodeMap (jsJoin '/' (parts.take k)) :=
        lookupMap_append_left hpp _
      obtain ⟨v, hv⟩ : ∃ v, lookupMap st.nodeMap (jsJoin '/' (parts.take k)) = some v := by
        cases hvv : lookupMap st.nodeMap (jsJoin '/' (parts.take k)) with
        | none => exact absurd ((lookupMap_eq_none_iff _ _).mp hvv) (by simpa using hpp)
        | some v => exact ⟨v, rfl⟩
      rw [hlookpp, hv]
      have hppm1 : jsJoin '/' (parts.take k) ∈ mapKeys (st.nodeMap ++ [(cp,
          info0)]) := by
        rw [mapKeys_append]
        exact List.mem_append_left _ hpp
      have hdep_pp : depthOf (jsJoin '/' (parts.take k)) = k - 1 :=
        depthOf_jsJoin_take hfree (by omega) (by omega)
      refine ⟨rfl, ?_, ?_, ?_, ?_⟩
      · refine ⟨?_, ?_, ?_, ?_, ?_, ?_⟩
        · rw [mapKeys_pushChild]
          exact hnd1
        · exact suffixPtr_pushChild_last hnd1 hpp hsp1
        · intro q
          have hold := hinv.refs1 q
          have hcnt := count_folderKeys_pushChild hnd1 hppm1 (Ref.folder cp) q
          have hch1 : childRefs [(cp, info0)] = [] := rfl
          have hfk1 : folderKeys [Ref.folder cp] = [cp] := rfl
          have hmk1 : mapKeys [(cp, info0)] = [cp] := rfl
          rw [childRefs_append, hch1, List.append_nil, hfk1] at hcnt
          simp only [allRefs, folderKeys_append, List.count_append] at hold ⊢
          rw [hcnt, mapKeys_pushChild, mapKeys_append, List.count_append, hmk1]
          omega
        · intro e he r hr
          rcases mem_children_pushChild hnd1 hppm1 (Ref.folder cp) he r hr with
            ⟨e2, he2, hkey, _, _, _, hmem⟩ | ⟨rfl, hkey⟩
          · rw [← hkey]
            exact hcdep1 e2 he2 r hmem
          · rw [hkey]
            show depthOf cp = depthOf (jsJoin '/' (parts.take k)) + 1
            rw [hdep_cp, hdep_pp]
            omega
        · exact hinv.rdep
        · intro e he
          obtain ⟨e2, he2, hkey, hname, hsize, hlm⟩ :=
            mem_pushChild_meta hnd1 hppm1 (Ref.folder cp) he
          obtain ⟨hs2, hl2, hn2⟩ := hfmeta1 e2 he2
          exact ⟨by rw [← hsize, hs2], by rw [← hlm, hl2], by rw [← hname, hn2, hkey]⟩
      · have hch1 : childRefs [(cp, info0)] = [] := rfl
        simp only [allRefs, fileDatas_append]
        rw [fileDatas_pushChild_folder hnd1 hppm1, childRefs_append, hch1]
        simp [fileDatas_append]
      · intro q hq
        rw [mapKeys_pushChild, mapKeys_append]
        exact List.mem_append_left _ hq
      · intro j h1 hj
        rw [mapKeys_pushChild, mapKeys_append]
        rcases Nat.lt_or_ge j (k + 1) with hjk | hjk
        · exact List.mem_append_left _ (hpref j h1 (by omega))
        · have : j = k + 1 := by omega
          subst this
          apply List.mem_append_right
          simp [mapKeys, ← hcpdef]

theorem loopFold_inv (now : Int) {parts : List String}
    (hfree : ∀ s ∈ parts, '/' ∉ s.data)
    (hp0 : parts.getD 0 "" ≠ "")
    {st : BuildState} (hinv : Inv now st)
    {k : Nat} (hk : k ≤ parts.length - 1) :
    ((List.range k).foldl (stepFolder parts now) ("", st)).1
        = (if k = 0 then "" else jsJoin '/' (parts.take k)) ∧
    Inv now ((List.range k).foldl (stepFolder parts now) ("", st)).2 ∧
    fileDatas (allRefs ((List.range k).foldl (stepFolder parts now) ("", st)).2)
        = fileDatas (allRefs st) ∧
    (∀ q ∈ mapKeys st.nodeMap,
      q ∈ mapKeys ((List.range k).foldl (stepFolder parts now) ("", st)).2.nodeMap) ∧
    (∀ j, 1 ≤ j → j ≤ k → jsJoin '/' (parts.take j)
      ∈ mapKeys ((List.range k).foldl (stepFolder parts now) ("", st)).2.nodeMap) := by
  induction k with
  | zero =>
    refine ⟨by simp, by simpa using hinv, by simp, by simp, ?_⟩
    intro j h1 hj
    omega
  | succ k2 ih =>
    have hk2 : k2 ≤ parts.length - 1 := by omega
    obtain ⟨ih1, ih2, ih3, ih4, ih5⟩ := ih hk2
    have hstep := stepFolder_inv now hfree hp0 (show k2 < parts.length - 1 by omega)
      ih2 ih5 ih1
    have hfold : (List.range (k2 + 1)).foldl (stepFolder parts now) ("", st)
        = stepFolder parts now ((List.range k2).foldl (stepFolder parts now) ("", st)) k2 := by
      rw [List.range_succ, List.foldl_append]
      rfl
    rw [hfold]
    obtain ⟨hs1, hs2, hs3, hs4, hs5⟩ := hstep
    refine ⟨by rw [hs1]; simp, hs2, by rw [hs3, ih3], fun q hq => hs4 q (ih4 q hq), hs5⟩

theorem dropLast_take (parts : List String) :
    parts.dropLast = parts.take (parts.length - 1) := by
  rw [List.dropLast_eq_take]

theorem processFile_inv (now : Int) {f : FileRec}
    (hp0 : (segs f.path).getD 0 "" ≠ "")
    {st : BuildState} (hinv : Inv now st) :
    Inv now (processFile now st f) ∧
    (∀ x, (fileDatas (allRefs (processFile now st f))).count x
        = (fileDatas (allRefs st)).count x
          + (if isMarker f = false ∧ x = leafNData now f then 1 else 0)) ∧
    (∀ q ∈ mapKeys st.nodeMap, q ∈ mapKeys (processFile now st f).nodeMap) ∧
    (isMarker f = false → ∀ j, 1 ≤ j → j ≤ (segs f.path).length - 1 →
      jsJoin '/' ((segs f.path).take j) ∈ mapKeys (processFile now st f).nodeMap) := by
  have hfree : ∀ s ∈ jsSplit '/' f.path, '/' ∉ s.data := jsSplit_sep_free f.path
  have hne : jsSplit '/' f.path ≠ [] := jsSplit_ne_nil f.path
  have hp0x : (jsSplit '/' f.path).getD 0 "" ≠ "" := hp0
  simp only [processFile]
  by_cases hmk : (jsSplit '/' f.path).getLastD "" = ".gitkeep"
  · rw [if_pos hmk]
    have hmk2 : isMarker f = true := by
      unfold isMarker
      exact beq_iff_eq.mpr hmk
    refine ⟨hinv, ?_, fun q hq => hq, ?_⟩
    · intro x
      rw [hmk2]
      simp
    · intro hc
      rw [hmk2] at hc
      cases hc
  · rw [if_neg hmk]
    have hmk2 : isMarker f = false := by
      unfold isMarker
      exact beq_eq_false_iff_ne.mpr hmk
    set nd : LeafData := { path := f.path, name := (jsSplit '/' f.path).getLastD "", size := f.size, lastModified := match f.lastModified with | some t => t / 1000000 | none => now } with hnddef
    have hleafnd : fileND nd = leafNData now f := rfl
    have hcount_one : ∀ x, List.count x [fileND nd]
        = (if isMarker f = false ∧ x = leafNData now f then 1 else 0) := by
      intro x
      by_cases hx : x = leafNData now f
      · rw [if_pos ⟨hmk2, hx⟩, hleafnd, hx]
        simp
      · rw [if_neg (fun hc => hx hc.2), hleafnd]
        exact List.count_eq_zero.mpr (by simpa using hx)
    by_cases hone : (jsSplit '/' f.path).length = 1
    · rw [if_pos hone]
      have hdep0 : depthOf f.path = 0 := by
        unfold depthOf segs
        omega
      refine ⟨?_, ?_, fun q hq => hq, ?_⟩
      · refine ⟨hinv.nodup, hinv.sptr, ?_, hinv.cdep, ?_, hinv.fmeta⟩
        · intro q
          have hold := hinv.refs1 q
          have hfkf : folderKeys [Ref.file nd] = [] := rfl
          simp only [allRefs, folderKeys_append, List.count_append, hfkf,
            List.count_nil] at hold ⊢
          omega
        · intro r hr
          rcases List.mem_append.mp hr with holdm | hnew
          · exact hinv.rdep r holdm
          · rcases List.mem_singleton.mp hnew with rfl
            show depthOf f.path = 0
            exact hdep0
      · intro x
        have hfdf : fileDatas [Ref.file nd] = [fileND nd] := rfl
        simp only [allRefs, fileDatas_append, List.count_append, hfdf]
        rw [hcount_one x]
        omega
      · intro hc j h1 hj
        simp only [segs] at hj
        omega
    · rw [if_neg hone]
      have hlen2 : 2 ≤ (jsSplit '/' f.path).length := by
        have hpos : 0 < (jsSplit '/' f.path).length := List.length_pos.mpr hne
        omega
      obtain ⟨l1, l2, l3, l4, l5⟩ := loopFold_inv now hfree hp0x hinv
        (le_rfl : (jsSplit '/' f.path).length - 1 ≤ (jsSplit '/' f.path).length - 1)
      have hpp : jsJoin '/' (jsSplit '/' f.path).dropLast
          = jsJoin '/' ((jsSplit '/' f.path).take ((jsSplit '/' f.path).length - 1)) := by
        rw [dropLast_take]
      have hppmem : jsJoin '/' (jsSplit '/' f.path).dropLast
          ∈ mapKeys ((List.range ((jsSplit '/' f.path).length - 1)).foldl
            (stepFolder (jsSplit '/' f.path) now) ("", st)).2.nodeMap := by
        rw [hpp]
        exact l5 _ (by omega) le_rfl
      obtain ⟨v, hv⟩ : ∃ v, lookupMap ((List.range ((jsSplit '/' f.path).length - 1)).foldl
          (stepFolder (jsSplit '/' f.path) now) ("", st)).2.nodeMap
          (jsJoin '/' (jsSplit '/' f.path).dropLast) = some v := by
        cases hvv : lookupMap ((List.range ((jsSplit '/' f.path).length - 1)).foldl
            (stepFolder (jsSplit '/' f.path) now) ("", st)).2.nodeMap
            (jsJoin '/' (jsSplit '/' f.path).dropLast) with
        | none => exact absurd ((lookupMap_eq_none_iff _ _).mp hvv) (by simpa using hppmem)
        | some v => exact ⟨v, rfl⟩
      rw [hv]
      have hdepf : depthOf f.path = (jsSplit '/' f.path).length - 1 := rfl
      have hdeppp : depthOf (jsJoin '/' ((jsSplit '/' f.path).take
          ((jsSplit '/' f.path).length - 1))) = (jsSplit '/' f.path).length - 1 - 1 :=
        depthOf_jsJoin_take hfree (by omega) (by omega)
      refine ⟨?_, ?_, ?_, ?_⟩
      · refine ⟨?_, ?_, ?_, ?_, ?_, ?_⟩
        · rw [mapKeys_pushChild]
          exact l2.nodup
        · exact suffixPtr_pushChild_file l2.nodup hppmem nd l2.sptr
        · intro q
          have hold := l2.refs1 q
          have hcnt := count_folderKeys_pushChild l2.nodup hppmem (Ref.file nd) q
          have hfkf : folderKeys [Ref.file nd] = [] := rfl
          rw [hfkf, List.count_nil] at hcnt
          simp only [allRefs, folderKeys_append, List.count_append] at hold ⊢
          rw [hcnt, mapKeys_pushChild]
          omega
        · intro e he r hr
          rcases mem_children_pushChild l2.nodup hppmem (Ref.file nd) he r hr with
            ⟨e2, he2, hkey, _, _, _, hmem⟩ | ⟨rfl, hkey⟩
          · rw [← hkey]
            exact l2.cdep e2 he2 r hmem
          · rw [hkey, hpp]
            show depthOf f.path = _ + 1
            rw [hdepf, hdeppp]
            omega
        · exact l2.rdep
        · intro e he
          obtain ⟨e2, he2, hkey, hname, hsize, hlm⟩ :=
            mem_pushChild_meta l2.nodup hppmem (Ref.file nd) he
          obtain ⟨hs2, hl2, hn2⟩ := l2.fmeta e2 he2
          exact ⟨by rw [← hsize, hs2], by rw [← hlm, hl2], by rw [← hname, hn2, hkey]⟩
      · intro x
        have hcnt := count_fileDatas_pushChild_file l2.nodup hppmem nd x
        simp only [allRefs, fileDatas_append, List.count_append] at l3 ⊢
        rw [hcnt]
        have hl3c := congrArg (List.count x) l3
        simp only [fileDatas_append, List.count_append] at hl3c
        by_cases hx : x = leafNData now f
        · have hxnd : x = fileND nd := by
            rw [hleafnd]
            exact hx
          rw [if_pos hxnd, if_pos ⟨hmk2, hx⟩]
          omega
        · have hxnd : ¬ x = fileND nd := by
            rw [hleafnd]
            exact hx
          rw [if_neg hxnd, if_neg (fun hc => hx hc.2)]
          omega
      · intro q hq
        rw [mapKeys_pushChild]
        exact l4 q hq
      · intro hc j h1 hj
        rw [mapKeys_pushChild]
        exact l5 j h1 (by simpa [segs] using hj)

theorem insertSorted_perm {α : Type} (le : α → α → Bool) (x : α) (l : List α) :
    List.Perm (insertSorted le x l) (x :: l) := by
  induction l with
  | nil => rfl
  | cons y ys ih =>
    unfold insertSorted
    split
    · exact (ih.cons y).trans (List.Perm.swap x y ys)
    · rfl

theorem jsSortBy_perm {α : Type} (le : α → α → Bool) (l : List α) :
    List.Perm (jsSortBy le l) l := by
  suffices h : ∀ acc : List α,
      List.Perm (l.foldl (fun acc x => insertSorted le x acc) acc) (acc ++ l) by
    simpa using h []
  induction l with
  | nil => simp
  | cons x xs ih =>
    intro acc
    have h1 : List.Perm (xs.foldl (fun acc x => insertSorted le x acc) (insertSorted le x acc))
        (insertSorted le x acc ++ xs) := ih _
    have h2 : List.Perm (insertSorted le x acc ++ xs) ((x :: acc) ++ xs) :=
      (insertSorted_perm le x acc).append_right xs
    have h3 : List.Perm ((x :: acc) ++ xs) (acc ++ x :: xs) := by
      simpa using List.perm_middle.symm
    exact (h1.trans h2).trans h3

theorem foldFiles_inv (now : Int) (files : List FileRec)
    (hs : ∀ f ∈ files, (segs f.path).getD 0 "" ≠ "")
    {st : BuildState} (hinv : Inv now st) :
    Inv now (files.foldl (processFile now) st) ∧
    (∀ x, (fileDatas (allRefs (files.foldl (processFile now) st))).count x
        = (fileDatas (allRefs st)).count x
          + ((files.filter fun f => !(isMarker f)).map (leafNData now)).count x) ∧
    (∀ q ∈ mapKeys st.nodeMap, q ∈ mapKeys (files.foldl (processFile now) st).nodeMap) ∧
    (∀ f ∈ files, isMarker f = false → ∀ j, 1 ≤ j → j ≤ (segs f.path).length - 1 →
      jsJoin '/' ((segs f.path).take j)
        ∈ mapKeys (files.foldl (processFile now) st).nodeMap) := by
  induction files generalizing st with
  | nil => exact ⟨hinv, by simp, fun q hq => hq, by simp⟩
  | cons f fs ih =>
    obtain ⟨p1, p2, p3, p4⟩ := processFile_inv now (hs f (List.mem_cons_self _ _)) hinv
    obtain ⟨i1, i2, i3, i4⟩ := ih (fun g hg => hs g (List.mem_cons_of_mem _ hg)) p1
    have hfold : (f :: fs).foldl (processFile now) st
        = fs.foldl (processFile now) (processFile now st f) := rfl
    rw [hfold]
    refine ⟨i1, ?_, fun q hq => i3 q (p3 q hq), ?_⟩
    · intro x
      rw [i2 x, p2 x]
      by_cases hm : isMarker f = true
      · rw [List.filter_cons_of_neg (by simp [hm])]
        rw [if_neg (by simp [hm])]
        omega
      · have hm2 : isMarker f = false := by
          cases hiso : isMarker f
          · rfl
          · exact absurd hiso hm
        rw [List.filter_cons_of_pos (by simp [hm2]), List.map_cons]
        by_cases hx : x = leafNData now f
        · rw [if_pos ⟨hm2, hx⟩, hx, List.count_cons_self]
          omega
        · rw [if_neg (fun hc => hx hc.2), List.count_cons_of_ne (fun hc => hx hc)]
          omega
    · intro g hg hgm j h1 hj
      rcases List.mem_cons.mp hg with rfl | hgfs
      · exact i3 _ (p4 hgm j h1 hj)
      · exact i4 g hgfs hgm j h1 hj

theorem buildTree_eq_resolve (le : String → String → Bool) (now : Int)
    (files : List FileRec) :
    buildTreeFromFilesWith le now files
      = (buildState le now files).tree.filterMap
          (resolveRef (resolveMap (buildState le now files).nodeMap)) := rfl

theorem inv_empty (now : Int) : Inv now { tree := [], nodeMap := [] } := by
  refine ⟨by simp [mapKeys], trivial, ?_, by simp [mapKeys], by simp, by simp [mapKeys]⟩
  intro q
  simp [allRefs, childRefs, folderKeys, mapKeys]

theorem buildState_inv (le : String → String → Bool) (now : Int) (files : List FileRec)
    (hs : ∀ f ∈ files, (segs f.path).getD 0 "" ≠ "") :
    Inv now (buildState le now files) ∧
    (∀ x, (fileDatas (allRefs (buildState le now files))).count x
        = ((files.filter fun f => !(isMarker f)).map (leafNData now)).count x) ∧
    (∀ f ∈ files, isMarker f = false → ∀ j, 1 ≤ j → j ≤ (segs f.path).length - 1 →
      jsJoin '/' ((segs f.path).take j) ∈ mapKeys (buildState le now files).nodeMap) := by
  have hperm : List.Perm (jsSortBy (fun a b => le a.path b.path) files) files :=
    jsSortBy_perm _ files
  have hs2 : ∀ f ∈ jsSortBy (fun a b => le a.path b.path) files,
      (segs f.path).getD 0 "" ≠ "" := fun f hf => hs f (hperm.mem_iff.mp hf)
  obtain ⟨i1, i2, i3, i4⟩ := foldFiles_inv now _ hs2 (inv_empty now)
  refine ⟨i1, ?_, ?_⟩
  · intro x
    have h0 : (fileDatas (allRefs { tree := ([] : List Ref), nodeMap := ([] : List (String × FolderInfo)) })).count x = 0 := rfl
    have h2 := i2 x
    rw [h0] at h2
    have hpf := (hperm.filter (fun f => !(isMarker f))).map (leafNData now)
    show (fileDatas (allRefs ((jsSortBy (fun a b => le a.path b.path) files).foldl
      (processFile now) { tree := [], nodeMap := [] }))).count x = _
    rw [h2, hpf.count_eq]
    omega
  · intro f hf hfm j h1 hj
    exact i4 f (hperm.mem_iff.mpr hf) hfm j h1 hj

theorem withDepth_map_snd (l : List NData) : (withDepth l).map Prod.snd = l := by
  simp [withDepth, List.map_map]
  exact List.map_id l

/-- The central correspondence: for inputs whose paths have a non-empty
first segment, the depth-annotated flattening of the built tree consists,
as a multiset, of one leaf per non-placeholder record and one folder per
store entry, each at the depth its path prescribes. -/
theorem buildTree_correspondence (le : String → String → Bool) (now : Int)
    (files : List FileRec)
    (hs : ∀ f ∈ files, (segs f.path).getD 0 "" ≠ "") :
    (↑((flattenForestDepth (buildTreeFromFilesWith le now files)).map
        (fun x => (x.1, x.2.nData))) : Multiset (Nat × NData))
      = ↑(withDepth ((files.filter fun f => !(isMarker f)).map (leafNData now)))
        + ↑(withDepth ((buildState le now files).nodeMap.map entryNData)) := by
  obtain ⟨hinv, hcounts, hpref⟩ := buildState_inv le now files hs
  have hdf : flattenForestDepth (buildTreeFromFilesWith le now files)
      = resolveFlatten (resolveMap (buildState le now files).nodeMap)
          (buildState le now files).tree := by
    rw [buildTree_eq_resolve]
    unfold flattenForestDepth
    rw [flattenListDepth_filterMap]
    unfold resolveFlatten
    apply flatMap_congr_mem
    intro r hr
    rw [hinv.rdep r hr]
  rw [hdf]
  have hmaster := resolveFlatten_master (buildState le now files).nodeMap
    (buildState le now files).tree hinv.nodup hinv.sptr (fun q => hinv.refs1 q) hinv.cdep
  rw [hmaster]
  congr 1
  have hms : (↑(fileDatas (allRefs (buildState le now files))) : Multiset NData)
      = ↑((files.filter fun f => !(isMarker f)).map (leafNData now)) := by
    apply Multiset.ext.mpr
    intro x
    simpa [Multiset.coe_count] using hcounts x
  have hp := Multiset.coe_eq_coe.mp hms
  have hpw : List.Perm (withDepth (fileDatas (allRefs (buildState le now files))))
      (withDepth ((files.filter fun f => !(isMarker f)).map (leafNData now))) :=
    hp.map _
  exact Multiset.coe_eq_coe.mpr hpw

theorem buildTreeFromFiles_eq (now : Int) (files : List FileRec) :
    buildTreeFromFiles now files = buildTreeFromFilesWith localeLe now files := rfl

/-- C1 (amended): for input sequences of records with unique paths in which
no path begins with the separator (equivalently: every path's first
slash-separated segment is non-empty), the non-folder nodes of the
depth-first flattening of the built tree are, up to order, exactly one leaf
per non-placeholder input record. -/
theorem c1_amended_exact_records (now : Int) (files : List FileRec)
    (_hu : (files.map FileRec.path).Nodup)
    (hs : ∀ f ∈ files, (segs f.path).getD 0 "" ≠ "") :
    List.Perm
      (((flattenForest (buildTreeFromFiles now files)).filter
          (fun n => !n.isFolder)).map FileNode.nData)
      ((files.filter fun f => !(isMarker f)).map (leafNData now)) := by
  have hcorr := buildTree_correspondence localeLe now files hs
  rw [Multiset.coe_add] at hcorr
  have hperm0 := Multiset.coe_eq_coe.mp hcorr
  have hperm1 := hperm0.map Prod.snd
  have hL : (((flattenForestDepth (buildTreeFromFilesWith localeLe now files)).map
      (fun x => (x.1, x.2.nData))).map Prod.snd)
      = (flattenForest (buildTreeFromFiles now files)).map FileNode.nData := by
    rw [buildTreeFromFiles_eq, flattenForest, List.map_map, List.map_map]
    rfl
  have hR : ((withDepth ((files.filter fun f => !(isMarker f)).map (leafNData now))
        ++ withDepth ((buildState localeLe now files).nodeMap.map entryNData)).map Prod.snd)
      = (files.filter fun f => !(isMarker f)).map (leafNData now)
        ++ (buildState localeLe now files).nodeMap.map entryNData := by
    rw [List.map_append, withDepth_map_snd, withDepth_map_snd]
  rw [hL, hR] at hperm1
  have hpf := hperm1.filter (fun nd => !nd.isFolder)
  rw [List.filter_append] at hpf
  have h1 : ((files.filter fun f => !(isMarker f)).map (leafNData now)).filter
      (fun nd => !nd.isFolder) = (files.filter fun f => !(isMarker f)).map (leafNData now) := by
    apply List.filter_eq_self.mpr
    intro a ha
    obtain ⟨f, hf, hfa⟩ := List.mem_map.mp ha
    rw [← hfa]
    rfl
  have h2 : ((buildState localeLe now files).nodeMap.map entryNData).filter
      (fun nd => !nd.isFolder) = [] := by
    apply List.filter_eq_nil_iff.mpr
    intro a ha
    obtain ⟨e, he, hea⟩ := List.mem_map.mp ha
    rw [← hea]
    simp [entryNData]
  rw [h1, h2, List.append_nil] at hpf
  have h3 : ((flattenForest (buildTreeFromFiles now files)).map FileNode.nData).filter
      (fun nd => !nd.isFolder)
      = ((flattenForest (buildTreeFromFiles now files)).filter
          (fun n => !n.isFolder)).map FileNode.nData := by
    rw [List.filter_map]
    rfl
  rw [h3] at hpf
  exact hpf

theorem c1_witness :
    ((c1wfiles.map FileRec.path).Nodup ∧
      ∀ f ∈ c1wfiles, (segs f.path).getD 0 "" ≠ "") ∧
    List.Perm
      (((flattenForest (buildTreeFromFiles 7 c1wfiles)).filter
          (fun n => !n.isFolder)).map FileNode.nData)
      ((c1wfiles.filter fun f => !(isMarker f)).map (leafNData 7)) :=
  ⟨⟨by decide, by decide⟩, c1_amended_exact_records 7 c1wfiles (by decide) (by decide)⟩

/-- C1 (counterexample): the single record with path `"/a/b"` has unique
paths and is not a placeholder, yet the built tree contains no non-folder
node at all — the record is lost, because its computed parent path `"/a"`
never appears in the folder map (the loop materializes `""` and `"a"`
instead). -/
theorem c1_counterexample_record_lost :
    (c1cfiles.map FileRec.path).Nodup ∧
    (c1cfiles.filter fun f => !(isMarker f)).map (leafNData 0) ≠ [] ∧
    ((flattenForest (buildTreeFromFiles 0 c1cfiles)).filter
        (fun n => !n.isFolder)).map FileNode.nData = [] := by
  refine ⟨by decide, by decide, ?_⟩
  rfl

theorem mem_withDepth {l : List NData} {x : Nat × NData} :
    x ∈ withDepth l ↔ ∃ nd ∈ l, x = (depthOf nd.path, nd) := by
  simp only [withDepth, List.mem_map]
  constructor
  · rintro ⟨nd, h1, rfl⟩
    exact ⟨nd, h1, rfl⟩
  · rintro ⟨nd, h1, rfl⟩
    exact ⟨nd, h1, rfl⟩

theorem count_withDepth_leaves_folder_zero {l : List NData}
    (hl : ∀ nd ∈ l, nd.isFolder = false) {y : Nat × NData} (hy : y.2.isFolder = true) :
    Multiset.count y (↑(withDepth l) : Multiset (Nat × NData)) = 0 := by
  rw [Multiset.count_eq_zero]
  intro hmem
  rw [Multiset.mem_coe, mem_withDepth] at hmem
  obtain ⟨nd, h1, rfl⟩ := hmem
  exact absurd hy (by simp [hl nd h1])

theorem mem_key_unique {m : List (String × FolderInfo)} (hnd : (mapKeys m).Nodup)
    {k : String} {i i2 : FolderInfo} (h1 : (k, i) ∈ m) (h2 : (k, i2) ∈ m) : i = i2 := by
  induction m with
  | nil => cases h1
  | cons e rest ih =>
    rw [mapKeys_cons, List.nodup_cons] at hnd
    rcases List.mem_cons.mp h1 with he1 | hr1
    · rcases List.mem_cons.mp h2 with he2 | hr2
      · rw [← he1] at he2
        exact (Prod.mk.injEq _ _ _ _ ▸ he2).2.symm
      · exact absurd (List.mem_map.mpr ⟨(k, i2), hr2, by rw [← he1]⟩) hnd.1
    · rcases List.mem_cons.mp h2 with he2 | hr2
      · exact absurd (List.mem_map.mpr ⟨(k, i), hr1, by rw [← he2]⟩) hnd.1
      · exact ih hnd.2 hr1 hr2

theorem count_entry_withDepth {m : List (String × FolderInfo)}
    (hnd : (mapKeys m).Nodup) {k : String} {i : FolderInfo} (hki : (k, i) ∈ m) :
    Multiset.count (depthOf k, entryNData (k, i))
      (↑(withDepth (m.map entryNData)) : Multiset (Nat × NData)) = 1 := by
  induction m with
  | nil => cases hki
  | cons e rest ih =>
    rw [mapKeys_cons, List.nodup_cons] at hnd
    have hw : withDepth ((e :: rest).map entryNData)
        = (depthOf e.1, entryNData e) :: withDepth (rest.map entryNData) := rfl
    rw [hw, ← Multiset.cons_coe]
    rcases List.mem_cons.mp hki with he | hrest
    · rw [← he, Multiset.count_cons_self]
      have h0 : Multiset.count (depthOf k, entryNData (k, i))
          (↑(withDepth (rest.map entryNData)) : Multiset (Nat × NData)) = 0 := by
        rw [Multiset.count_eq_zero]
        intro hmem
        rw [Multiset.mem_coe, mem_withDepth] at hmem
        obtain ⟨nd2, hnd2, heq⟩ := hmem
        obtain ⟨e2, he2, rfl⟩ := List.mem_map.mp hnd2
        have hkey : k = e2.1 := congrArg (fun y => y.2.path) heq
        exact hnd.1 (List.mem_map.mpr ⟨e2, he2, by rw [← hkey, ← he]⟩)
      rw [h0]
    · have hk2 : k ∈ mapKeys rest := List.mem_map.mpr ⟨(k, i), hrest, rfl⟩
      have hne : (depthOf k, entryNData (k, i)) ≠ (depthOf e.1, entryNData e) := by
        intro hc
        have hkey : k = e.1 := congrArg (fun y => y.2.path) hc
        exact hnd.1 (hkey ▸ hk2)
      rw [Multiset.count_cons_of_ne hne, ih hnd.2 hrest]

/-- C4 (amended): for a non-placeholder record whose path has `n`
slash-separated segments, in an input set in which no path begins with the
separator, each of the `n-1` proper path prefixes carries exactly one
folder node — synthesized with `size = 0`, `lastModified = now` and the
prefix's final segment as its name — sitting at the depth its prefix
length prescribes, and the record's leaf datum occurs at nesting depth
`n-1`; moreover every node of the flattened output sits at the depth its
own path prescribes. -/
theorem c4_amended_ancestors_and_depth (now : Int) (files : List FileRec)
    (hs : ∀ f ∈ files, (segs f.path).getD 0 "" ≠ "")
    (f : FileRec) (hf : f ∈ files) (hnm : isMarker f = false) :
    (∀ j, 1 ≤ j → j ≤ (segs f.path).length - 1 →
      Multiset.count
        (j - 1, ({ path := jsJoin '/' ((segs f.path).take j), name := (segs f.path).getD (j - 1) "", isFolder := true, size := 0, lastModified := now } : NData))
        (↑((flattenForestDepth (buildTreeFromFiles now files)).map
            (fun x => (x.1, x.2.nData))) : Multiset (Nat × NData)) = 1 ∧
      (∀ x ∈ (flattenForestDepth (buildTreeFromFiles now files)).map
          (fun x => (x.1, x.2.nData)),
        x.2.isFolder = true → x.2.path = jsJoin '/' ((segs f.path).take j) →
        x = (j - 1, ({ path := jsJoin '/' ((segs f.path).take j), name := (segs f.path).getD (j - 1) "", isFolder := true, size := 0, lastModified := now } : NData)))) ∧
    ((segs f.path).length - 1, leafNData now f)
      ∈ (flattenForestDepth (buildTreeFromFiles now files)).map
          (fun x => (x.1, x.2.nData)) ∧
    (∀ x ∈ (flattenForestDepth (buildTreeFromFiles now files)).map
        (fun x => (x.1, x.2.nData)), x.1 = depthOf x.2.path) := by
  obtain ⟨hinv, hcounts, hpref⟩ := buildState_inv localeLe now files hs
  have hcorr := buildTree_correspondence localeLe now files hs
  rw [← buildTreeFromFiles_eq] at hcorr
  have hfree : ∀ s ∈ segs f.path, '/' ∉ s.data := jsSplit_sep_free f.path
  have hmem : ∀ x ∈ (flattenForestDepth (buildTreeFromFiles now files)).map
      (fun x => (x.1, x.2.nData)),
      x ∈ withDepth ((files.filter fun g => !(isMarker g)).map (leafNData now))
        ∨ x ∈ withDepth ((buildState localeLe now files).nodeMap.map entryNData) := by
    intro x hx
    have hx2 : x ∈ (↑((flattenForestDepth (buildTreeFromFiles now files)).map
        (fun x => (x.1, x.2.nData))) : Multiset (Nat × NData)) := Multiset.mem_coe.mpr hx
    rw [hcorr] at hx2
    rcases Multiset.mem_add.mp hx2 with h | h
    · exact Or.inl (Multiset.mem_coe.mp h)
    · exact Or.inr (Multiset.mem_coe.mp h)
  refine ⟨?_, ?_, ?_⟩
  · intro j h1 hj
    set td : NData := { path := jsJoin '/' ((segs f.path).take j), name := (segs f.path).getD (j - 1) "", isFolder := true, size := 0, lastModified := now } with htd
    have hjle : j ≤ (segs f.path).length := by omega
    have hpj := hpref f hf hnm j h1 hj
    obtain ⟨pre, info, post, hdec⟩ := mem_mapKeys_decomp hpj
    have hki : (jsJoin '/' ((segs f.path).take j), info)
        ∈ (buildState localeLe now files).nodeMap := by
      rw [hdec]
      exact List.mem_append_right _ (List.mem_cons_self _ _)
    obtain ⟨hsz, hlm, hnm2⟩ := hinv.fmeta _ hki
    have hsegs := segs_jsJoin_take hfree h1 hjle
    have hlast : ((segs f.path).take j).getLastD "" = (segs f.path).getD (j - 1) "" := by
      have hj1 : j - 1 < (segs f.path).length := by omega
      have ht := take_succ_getD hj1
      rw [Nat.sub_add_cancel h1] at ht
      rw [ht, List.getLastD_concat]
    have hdp : depthOf (jsJoin '/' ((segs f.path).take j)) = j - 1 :=
      depthOf_jsJoin_take hfree h1 hjle
    have hname : info.name = (segs f.path).getD (j - 1) "" := by
      rw [hnm2, hsegs, hlast]
    have hsz3 : info.size = 0 := hsz
    have hlm3 : info.lastModified = now := hlm
    have hent : entryNData (jsJoin '/' ((segs f.path).take j), info) = td := by
      have h5 : entryNData (jsJoin '/' ((segs f.path).take j), info)
          = { path := jsJoin '/' ((segs f.path).take j), name := info.name, isFolder := true, size := info.size, lastModified := info.lastModified } := rfl
      rw [h5, hname, hsz3, hlm3, htd]
    constructor
    · rw [hcorr, Multiset.count_add]
      have hz : Multiset.count (j - 1, td)
          (↑(withDepth ((files.filter fun g => !(isMarker g)).map (leafNData now)))
            : Multiset (Nat × NData)) = 0 := by
        apply count_withDepth_leaves_folder_zero
        · intro nd hnd2
          obtain ⟨g, hg, rfl⟩ := List.mem_map.mp hnd2
          rfl
        · rfl
      rw [hz, Nat.zero_add]
      have hce := count_entry_withDepth hinv.nodup hki
      rw [hdp, hent] at hce
      exact hce
    · intro x hx hfold hpath
      rcases hmem x hx with h | h
      · exfalso
        rw [mem_withDepth] at h
        obtain ⟨nd, hnd3, rfl⟩ := h
        obtain ⟨g, hg, rfl⟩ := List.mem_map.mp hnd3
        simp [leafNData] at hfold
      · rw [mem_withDepth] at h
        obtain ⟨nd, hnd3, rfl⟩ := h
        obtain ⟨e, he, rfl⟩ := List.mem_map.mp hnd3
        have hkey : e.1 = jsJoin '/' ((segs f.path).take j) := hpath
        have hee : e = (e.1, e.2) := rfl
        have he2 : (jsJoin '/' ((segs f.path).take j), e.2)
            ∈ (buildState localeLe now files).nodeMap := by
          rw [← hkey, ← hee]
          exact he
        have hei : e = (jsJoin '/' ((segs f.path).take j), info) := by
          rw [hee, hkey, mem_key_unique hinv.nodup he2 hki]
        rw [hei, hent]
        rw [show depthOf td.path = j - 1 from hdp]
  · have hl1 : leafNData now f ∈ (files.filter fun g => !(isMarker g)).map (leafNData now) :=
      List.mem_map.mpr ⟨f, List.mem_filter.mpr ⟨hf, by rw [hnm]; rfl⟩, rfl⟩
    have hw : ((segs f.path).length - 1, leafNData now f)
        ∈ withDepth ((files.filter fun g => !(isMarker g)).map (leafNData now)) := by
      rw [mem_withDepth]
      exact ⟨leafNData now f, hl1, rfl⟩
    have hm2 : ((segs f.path).length - 1, leafNData now f)
        ∈ (↑((flattenForestDepth (buildTreeFromFiles now files)).map
            (fun x => (x.1, x.2.nData))) : Multiset (Nat × NData)) := by
      rw [hcorr]
      exact Multiset.mem_add.mpr (Or.inl (Multiset.mem_coe.mpr hw))
    exact Multiset.mem_coe.mp hm2
  · intro x hx
    rcases hmem x hx with h | h
    · rw [mem_withDepth] at h
      obtain ⟨nd, hnd3, rfl⟩ := h
      rfl
    · rw [mem_withDepth] at h
      obtain ⟨nd, hnd3, rfl⟩ := h
      rfl

theorem c4_witness :
    ((∀ f ∈ c4wfiles, (segs f.path).getD 0 "" ≠ "") ∧ c4wrec ∈ c4wfiles ∧
      isMarker c4wrec = false) ∧
    ((segs c4wrec.path).length - 1, leafNData 7 c4wrec)
      ∈ (flattenForestDepth (buildTreeFromFiles 7 c4wfiles)).map
          (fun x => (x.1, x.2.nData)) :=
  ⟨⟨by decide, by decide, by decide⟩,
    (c4_amended_ancestors_and_depth 7 c4wfiles (by decide) c4wrec (by decide)
      (by decide)).2.1⟩

/-- C4 (counterexample): the non-placeholder record with path `"/x/y"` has
three slash-separated segments, yet the built tree consists of exactly two
folder nodes with paths `""` and `"x"` — the expected ancestor `"/x"` is
never materialized and the leaf does not appear at all (in particular not
at depth 2), because the loop's `currentPath` accumulator restarts at the
empty first segment. -/
theorem c4_counterexample_record_with_leading_slash :
    isMarker c4crec = false ∧
    (segs c4crec.path).length = 3 ∧
    ((flattenForestDepth (buildTreeFromFiles 0 c4cfiles)).map
        (fun x => (x.1, x.2.nData)))
      = [(0, { path := "", name := "", isFolder := true, size := 0, lastModified := 0 }),
         (1, { path := "x", name := "x", isFolder := true, size := 0, lastModified := 0 })] :=
  ⟨rfl, rfl, rfl⟩

theorem allRefs_mk (t : List Ref) (m : List (String × FolderInfo)) :
    allRefs { tree := t, nodeMap := m } = t ++ childRefs m := rfl

theorem mem_pushChild_general {m : List (String × FolderInfo)} {k : String} {r : Ref}
    {e : String × FolderInfo} (he : e ∈ pushChild m k r) :
    ∃ e2 ∈ m, e.1 = e2.1 ∧ e.2.size = e2.2.size ∧ e.2.lastModified = e2.2.lastModified ∧
      ∀ x ∈ e.2.children, x ∈ e2.2.children ∨ x = r := by
  unfold pushChild at he
  obtain ⟨e2, he2, heq⟩ := List.mem_map.mp he
  refine ⟨e2, he2, ?_⟩
  by_cases hc : e2.1 = k
  · rw [if_pos hc] at heq
    rw [← heq]
    refine ⟨rfl, rfl, rfl, ?_⟩
    intro x hx
    rcases List.mem_append.mp hx with h | h
    · exact Or.inl h
    · exact Or.inr (List.mem_singleton.mp h)
  · rw [if_neg hc] at heq
    rw [← heq]
    exact ⟨rfl, rfl, rfl, fun x hx => Or.inl hx⟩

theorem mem_childRefs_pushChild {m : List (String × FolderInfo)} {k : String} {r : Ref}
    {x : Ref} (hx : x ∈ childRefs (pushChild m k r)) : x ∈ childRefs m ∨ x = r := by
  unfold childRefs at hx ⊢
  rw [List.mem_flatMap] at hx
  obtain ⟨e, he, hxe⟩ := hx
  obtain ⟨e2, he2, _, _, _, hch⟩ := mem_pushChild_general he
  rcases hch x hxe with h | h
  · exact Or.inl (List.mem_flatMap.mpr ⟨e2, he2, h⟩)
  · exact Or.inr h

theorem stepFolder_good (now : Int) (files : List FileRec) (parts : List String)
    (acc1 : String) (st : BuildState) (i : Nat) (hg : GoodState now files st) :
    GoodState now files (stepFolder parts now (acc1, st) i).2 := by
  obtain ⟨hr, he⟩ := hg
  simp only [stepFolder]
  set cp := if acc1 ≠ "" then acc1 ++ "/" ++ parts.getD i "" else parts.getD i "" with hcp
  set info0 : FolderInfo := { name := parts.getD i "", size := 0, lastModified := now, children := [] } with hinfo0
  have hch0 : childRefs [(cp, info0)] = [] := rfl
  cases hlook : lookupMap st.nodeMap cp with
  | some v => exact ⟨hr, he⟩
  | none =>
    have hm1 : ∀ e ∈ st.nodeMap ++ [(cp, info0)], e.2.size = 0 ∧ e.2.lastModified = now := by
      intro e he2
      rcases List.mem_append.mp he2 with h | h
      · exact he e h
      · rw [List.mem_singleton] at h
        rw [h]
        exact ⟨rfl, rfl⟩
    by_cases hi : i = 0
    · rw [if_pos hi]
      refine ⟨?_, hm1⟩
      intro r hr2
      rw [allRefs_mk, childRefs_append, hch0, List.append_nil] at hr2
      rcases List.mem_append.mp hr2 with h | h
      · rcases List.mem_append.mp h with h2 | h2
        · exact hr r (List.mem_append_left _ h2)
        · rw [List.mem_singleton] at h2
          rw [h2]
          trivial
      · exact hr r (List.mem_append_right _ h)
    · rw [if_neg hi]
      cases hlook2 : lookupMap (st.nodeMap ++ [(cp, info0)]) (jsJoin '/' (parts.take i)) with
      | some v2 =>
        refine ⟨?_, ?_⟩
        · intro r hr2
          rw [allRefs_mk] at hr2
          rcases List.mem_append.mp hr2 with h | h
          · exact hr r (List.mem_append_left _ h)
          · rcases mem_childRefs_pushChild h with h2 | h2
            · rw [childRefs_append, hch0, List.append_nil] at h2
              exact hr r (List.mem_append_right _ h2)
            · rw [h2]
              trivial
        · intro e he2
          obtain ⟨e2, he3, _, hsz, hlm, _⟩ := mem_pushChild_general he2
          rw [hsz, hlm]
          exact hm1 e2 he3
      | none =>
        refine ⟨?_, hm1⟩
        intro r hr2
        rw [allRefs_mk, childRefs_append, hch0, List.append_nil] at hr2
        rcases List.mem_append.mp hr2 with h | h
        · exact hr r (List.mem_append_left _ h)
        · exact hr r (List.mem_append_right _ h)

theorem loopFold_good (now : Int) (files : List FileRec) (parts : List String)
    (l : List Nat) :
    ∀ acc : String × BuildState, GoodState now files acc.2 →
      GoodState now files (l.foldl (stepFolder parts now) acc).2 := by
  induction l with
  | nil => exact fun acc h => h
  | cons a l ih =>
    intro acc h
    exact ih _ (stepFolder_good now files parts acc.1 acc.2 a h)

theorem processFile_good (now : Int) (files : List FileRec) (st : BuildState)
    (f : FileRec) (hf : f ∈ files) (hg : GoodState now files st) :
    GoodState now files (processFile now st f) := by
  obtain ⟨hr, he⟩ := hg
  simp only [processFile]
  by_cases hmk : (jsSplit '/' f.path).getLastD "" = ".gitkeep"
  · rw [if_pos hmk]
    exact ⟨hr, he⟩
  · rw [if_neg hmk]
    have hmf : isMarker f = false := by
      unfold isMarker
      exact beq_eq_false_iff_ne.mpr hmk
    set nd : LeafData := { path := f.path, name := (jsSplit '/' f.path).getLastD "", size := f.size, lastModified := match f.lastModified with | some t => t / 1000000 | none => now } with hnddef
    have hndgood : GoodRef now files (Ref.file nd) := ⟨f, hf, hmf, rfl⟩
    by_cases hone : (jsSplit '/' f.path).length = 1
    · rw [if_pos hone]
      refine ⟨?_, he⟩
      intro r hr2
      rw [allRefs_mk] at hr2
      rcases List.mem_append.mp hr2 with h | h
      · rcases List.mem_append.mp h with h2 | h2
        · exact hr r (List.mem_append_left _ h2)
        · rw [List.mem_singleton] at h2
          rw [h2]
          exact hndgood
      · exact hr r (List.mem_append_right _ h)
    · rw [if_neg hone]
      obtain ⟨hr1, he1⟩ := loopFold_good now files (jsSplit '/' f.path)
        (List.range ((jsSplit '/' f.path).length - 1)) ("", st) ⟨hr, he⟩
      cases hlook : lookupMap ((List.range ((jsSplit '/' f.path).length - 1)).foldl
          (stepFolder (jsSplit '/' f.path) now) ("", st)).2.nodeMap
          (jsJoin '/' (jsSplit '/' f.path).dropLast) with
      | some v =>
        refine ⟨?_, ?_⟩
        · intro r hr2
          rw [allRefs_mk] at hr2
          rcases List.mem_append.mp hr2 with h | h
          · exact hr1 r (List.mem_append_left _ h)
          · rcases mem_childRefs_pushChild h with h2 | h2
            · exact hr1 r (List.mem_append_right _ h2)
            · rw [h2]
              exact hndgood
        · intro e he2
          obtain ⟨e2, he3, _, hsz, hlm, _⟩ := mem_pushChild_general he2
          rw [hsz, hlm]
          exact he1 e2 he3
      | none => exact ⟨hr1, he1⟩

theorem foldFiles_good (now : Int) (files : List FileRec) (l : List FileRec)
    (hl : ∀ f ∈ l, f ∈ files) :
    ∀ st : BuildState, GoodState now files st →
      GoodState now files (l.foldl (processFile now) st) := by
  induction l with
  | nil => exact fun st h => h
  | cons f l ih =>
    intro st h
    exact ih (fun g hg => hl g (List.mem_cons_of_mem _ hg)) _
      (processFile_good now files st f (hl f (List.mem_cons_self _ _)) h)

theorem buildState_good (le : String → String → Bool) (now : Int)
    (files : List FileRec) : GoodState now files (buildState le now files) := by
  apply foldFiles_good now files _
    (fun f hf => (jsSortBy_perm (fun a b => le a.path b.path) files).mem_iff.mp hf)
  constructor
  · intro r hr2
    rw [allRefs_mk] at hr2
    cases hr2
  · intro e he2
    cases he2

theorem lookupNode_mem {R : List (String × FileNode)} {k : String} {n : FileNode}
    (h : lookupNode R k = some n) : ∃ k2, (k2, n) ∈ R := by
  induction R with
  | nil => cases h
  | cons e rest ih =>
    obtain ⟨k2, v⟩ := e
    simp only [lookupNode] at h
    by_cases hc : k2 = k
    · rw [if_pos hc] at h
      exact ⟨k2, by rw [Option.some_inj.mp h]; exact List.mem_cons_self _ _⟩
    · rw [if_neg hc] at h
      obtain ⟨k3, hk3⟩ := ih h
      exact ⟨k3, List.mem_cons_of_mem _ hk3⟩

theorem flattenNodeDepth_toLeaf (d : Nat) (ld : LeafData) :
    flattenNodeDepth d (toLeafNode ld) = [(d, toLeafNode ld)] := rfl

theorem goodNode_toLeaf (now : Int) (files : List FileRec) {ld : LeafData}
    (h : ∃ f ∈ files, isMarker f = false ∧ ld = leafLD now f) :
    GoodNode now files (toLeafNode ld) := by
  obtain ⟨f, hf, hmf, rfl⟩ := h
  exact ⟨rfl, fun _ => ⟨f, hf, hmf, rfl⟩, fun hc => nomatch hc⟩

theorem mem_flattenListDepth {d : Nat} {ns : List FileNode} {x : Nat × FileNode} :
    x ∈ flattenListDepth d ns ↔ ∃ n ∈ ns, x ∈ flattenNodeDepth d n := by
  induction ns with
  | nil => simp [flattenListDepth]
  | cons n ns ih => simp [flattenListDepth, List.mem_append, ih]

theorem resolveMap_shape (now : Int) (files : List FileRec) :
    ∀ m : List (String × FolderInfo),
      (∀ e ∈ m, e.2.size = 0 ∧ e.2.lastModified = now ∧
        ∀ r ∈ e.2.children, GoodRef now files r) →
      ∀ k n, (k, n) ∈ resolveMap m →
      ∀ d (x : Nat × FileNode), x ∈ flattenNodeDepth d n → GoodNode now files x.2 := by
  intro m
  induction m with
  | nil =>
    intro _ k n hkn
    cases hkn
  | cons e rest ih =>
    intro hm k n hkn d x hx
    obtain ⟨p, info⟩ := e
    have hmrest : ∀ e2 ∈ rest, e2.2.size = 0 ∧ e2.2.lastModified = now ∧
        ∀ r ∈ e2.2.children, GoodRef now files r :=
      fun e2 he2 => hm e2 (List.mem_cons_of_mem _ he2)
    have hrm : resolveMap ((p, info) :: rest)
        = (p, FileNode.mk p info.name true info.size info.lastModified
            (some (info.children.filterMap (resolveRef (resolveMap rest))))) :: resolveMap rest := rfl
    rw [hrm] at hkn
    rcases List.mem_cons.mp hkn with hhead | htail
    · have hn : n = FileNode.mk p info.name true info.size info.lastModified
          (some (info.children.filterMap (resolveRef (resolveMap rest)))) :=
        congrArg Prod.snd hhead
      rw [hn] at hx
      have hfl : flattenNodeDepth d (FileNode.mk p info.name true info.size info.lastModified (some (info.children.filterMap (resolveRef (resolveMap rest)))))
          = (d, FileNode.mk p info.name true info.size info.lastModified (some (info.children.filterMap (resolveRef (resolveMap rest)))))
            :: flattenListDepth (d + 1) (info.children.filterMap (resolveRef (resolveMap rest))) := rfl
      rw [hfl] at hx
      rcases List.mem_cons.mp hx with hx1 | hx2
      · rw [hx1]
        obtain ⟨hsz, hlm, _⟩ := hm (p, info) (List.mem_cons_self _ _)
        refine ⟨rfl, ?_, ?_⟩
        · intro hc
          simp [FileNode.isFolder] at hc
        · intro _
          exact ⟨hsz, hlm⟩
      · rw [mem_flattenListDepth] at hx2
        obtain ⟨c, hc, hxc⟩ := hx2
        obtain ⟨r, hrch, hres⟩ := List.mem_filterMap.mp hc
        cases r with
        | file ld =>
          have hcl : c = toLeafNode ld := by
            simpa [resolveRef] using hres.symm
          rw [hcl, flattenNodeDepth_toLeaf, List.mem_singleton] at hxc
          rw [hxc]
          exact goodNode_toLeaf now files
            ((hm (p, info) (List.mem_cons_self _ _)).2.2 (Ref.file ld) hrch)
        | folder q =>
          obtain ⟨k2, hk2⟩ := lookupNode_mem hres
          exact ih hmrest k2 c hk2 _ x hxc
    · exact ih hmrest k n htail d x hx

/-- C8: in the output of `buildTreeFromFiles`, a node carries a `children`
field exactly when its `isFolder` is `true`; every non-folder node carries
the leaf data of some non-placeholder input record (with `isFolder = false`
regardless of the record's own `isFolder` flag, and no `children` field),
and every folder node is a synthesized intermediate with `size = 0` and
`lastModified = now`. -/
theorem c8_children_iff_folder (now : Int) (files : List FileRec) :
    ∀ n ∈ flattenForest (buildTreeFromFiles now files),
      (n.children.isSome = true ↔ n.isFolder = true) ∧
      (n.isFolder = false → n.children = none ∧
        ∃ f ∈ files, isMarker f = false ∧ n.nData = leafNData now f) ∧
      (n.isFolder = true → n.size = 0 ∧ n.lastModified = now) := by
  intro n hn
  obtain ⟨x, hx, rfl⟩ := List.mem_map.mp hn
  obtain ⟨hr, he⟩ := buildState_good localeLe now files
  have hm : ∀ e ∈ (buildState localeLe now files).nodeMap,
      e.2.size = 0 ∧ e.2.lastModified = now ∧
      ∀ r ∈ e.2.children, GoodRef now files r := by
    intro e he2
    refine ⟨(he e he2).1, (he e he2).2, ?_⟩
    intro r hrch
    exact hr r (List.mem_append_right _ (List.mem_flatMap.mpr ⟨e, he2, hrch⟩))
  rw [buildTreeFromFiles_eq, buildTree_eq_resolve] at hx
  simp only [flattenForestDepth] at hx
  rw [mem_flattenListDepth] at hx
  obtain ⟨n0, hn0, hxn0⟩ := hx
  obtain ⟨r, hrt, hres⟩ := List.mem_filterMap.mp hn0
  have hgn : GoodNode now files x.2 := by
    cases r with
    | file ld =>
      have hcl : n0 = toLeafNode ld := by
        simpa [resolveRef] using hres.symm
      rw [hcl, flattenNodeDepth_toLeaf, List.mem_singleton] at hxn0
      rw [hxn0]
      exact goodNode_toLeaf now files (hr (Ref.file ld) (List.mem_append_left _ hrt))
    | folder q =>
      obtain ⟨k2, hk2⟩ := lookupNode_mem hres
      exact resolveMap_shape now files _ hm k2 n0 hk2 0 x hxn0
  obtain ⟨h1, h2, h3⟩ := hgn
  refine ⟨⟨fun hi => by rw [← h1]; exact hi, fun hf2 => by rw [h1]; exact hf2⟩, ?_, h3⟩
  intro hf2
  refine ⟨?_, h2 hf2⟩
  have hsome : x.2.children.isSome = false := by rw [h1, hf2]
  cases hco : x.2.children with
  | none => rfl
  | some v =>
    rw [hco] at hsome
    simp at hsome

theorem c8_witness :
    FileNode.mk "a/b.txt" "b.txt" false 2 5 none
        ∈ flattenForest (buildTreeFromFiles 5 c8wfiles) ∧
    (((FileNode.mk "a/b.txt" "b.txt" false 2 5 none).children.isSome = true
        ↔ (FileNode.mk "a/b.txt" "b.txt" false 2 5 none).isFolder = true) ∧
      ((FileNode.mk "a/b.txt" "b.txt" false 2 5 none).isFolder = false →
        (FileNode.mk "a/b.txt" "b.txt" false 2 5 none).children = none ∧
        ∃ f ∈ c8wfiles, isMarker f = false ∧
          (FileNode.mk "a/b.txt" "b.txt" false 2 5 none).nData = leafNData 5 f) ∧
      ((FileNode.mk "a/b.txt" "b.txt" false 2 5 none).isFolder = true →
        (FileNode.mk "a/b.txt" "b.txt" false 2 5 none).size = 0 ∧
        (FileNode.mk "a/b.txt" "b.txt" false 2 5 none).lastModified = 5)) :=
  have hmem : FileNode.mk "a/b.txt" "b.txt" false 2 5 none
      ∈ flattenForest (buildTreeFromFiles 5 c8wfiles) := by
    rw [show flattenForest (buildTreeFromFiles 5 c8wfiles)
        = [FileNode.mk "a" "a" true 0 5 (some [FileNode.mk "a/b.txt" "b.txt" false 2 5 none]),
           FileNode.mk "a/b.txt" "b.txt" false 2 5 none] from rfl]
    exact List.mem_cons_of_mem _ (List.mem_cons_self _ _)
  ⟨hmem, c8_children_iff_folder 5 c8wfiles
    (FileNode.mk "a/b.txt" "b.txt" false 2 5 none) hmem⟩

end IcpHub
